import Mathlib

/-!
Verification of the `statichash` static, memory-mappable hash table
(package `statichash`: `table.go`, `file.go`).

The Go code is shallowly embedded: the arena's typed section views
(`hashes`, `keys`, `values`, `keyData`) become lists of naturals (bytes
are naturals < 256, 32-bit fingerprints are naturals < 2^32), pointer
arithmetic becomes list index arithmetic, and panics become `Option`
failures (`none`).  The external hash function `aeshash.Hash` is a
parameter; the conversion `hash(aeshash.Hash(key))` to `uint32` is the
explicit `% 2^32` in `fingerprint`.
-/

set_option autoImplicit false

namespace Statichash

/-- A Go string key, as its byte sequence. -/
abbrev Key := List Nat

/-! ### Generic byte-buffer operations -/

/-- `seg l a n` is the byte segment `l[a : a+n]` (clamped at the end,
like a Go slice whose bounds are in range). -/
def seg (l : List Nat) (a n : Nat) : List Nat :=
  (l.drop a).take n

/-- `writeAt l pos src` models `copy(l[pos:], src)`: it overwrites
`min (src.length) (l.length - pos)` bytes of `l` starting at `pos`,
leaving the rest of `l` unchanged (Go's `copy` truncates silently). -/
def writeAt (l : List Nat) (pos : Nat) (src : List Nat) : List Nat :=
  l.take pos ++ src.take (l.length - pos) ++ l.drop (pos + src.length)

theorem writeAt_length (l : List Nat) (pos : Nat) (src : List Nat)
    (h : pos ≤ l.length) : (writeAt l pos src).length = l.length := by
  simp only [writeAt, List.length_append, List.length_take, List.length_drop]
  omega

/-- When the write fits in the buffer, `writeAt` is the evident splice. -/
theorem writeAt_eq_of_fits (l : List Nat) (pos : Nat) (src : List Nat)
    (h : pos + src.length ≤ l.length) :
    writeAt l pos src = l.take pos ++ src ++ l.drop (pos + src.length) := by
  simp only [writeAt]
  have h1 : src.take (l.length - pos) = src := List.take_of_length_le (by omega)
  rw [h1]

/-- The prefix before the write position is untouched. -/
theorem writeAt_take (l : List Nat) (pos : Nat) (src : List Nat)
    (h : pos ≤ l.length) :
    (writeAt l pos src).take pos = l.take pos := by
  simp only [writeAt, List.append_assoc]
  exact List.take_left' (by simp; omega)

/-- The bytes after the write are untouched. -/
theorem writeAt_drop (l : List Nat) (pos : Nat) (src : List Nat)
    (h : pos + src.length ≤ l.length) :
    (writeAt l pos src).drop (pos + src.length) = l.drop (pos + src.length) := by
  rw [writeAt_eq_of_fits l pos src h]
  exact List.drop_left' (by simp [List.length_append]; omega)

/-- The written segment holds `src` when it fits. -/
theorem writeAt_seg (l : List Nat) (pos : Nat) (src : List Nat)
    (h : pos + src.length ≤ l.length) :
    seg (writeAt l pos src) pos src.length = src := by
  rw [writeAt_eq_of_fits l pos src h]
  simp only [seg, List.append_assoc]
  rw [List.drop_left' (by simp; omega)]
  exact List.take_left' rfl

/-! ### Varint codec (`encoding/binary` PutVarint / ReadVarint)

`binary.PutVarint(buf, x)` zig-zag encodes `x` and emits base-128 digits,
low digits first, with the high bit of each byte as a continuation flag.
Key lengths are non-negative, so the zig-zag image of a length `n` is
`2 * n`. -/

/-- Recursion core of `binary.PutUvarint`, structurally recursive on a
fuel bound so that it evaluates by kernel reduction; `putUvarint_eq`
below recovers the loop's natural unfolding. -/
def putUvarintAux : Nat → Nat → List Nat
  | 0, x => [x]
  | fuel + 1, x =>
    if x < 128 then [x]
    else (x % 128 + 128) :: putUvarintAux fuel (x / 128)

/-- `binary.PutUvarint`: base-128 little-endian digits with continuation
bits. -/
def putUvarint (x : Nat) : List Nat := putUvarintAux x x

theorem putUvarintAux_congr : ∀ (fuel fuel' x : Nat), x ≤ fuel → x ≤ fuel' →
    putUvarintAux fuel x = putUvarintAux fuel' x := by
  intro fuel
  induction fuel with
  | zero =>
    intro fuel' x hx _
    have hx0 : x = 0 := by omega
    subst hx0
    rcases fuel' with _ | fuel' <;> rfl
  | succ fuel ih =>
    intro fuel' x hx hx'
    rcases fuel' with _ | fuel'
    · have hx0 : x = 0 := by omega
      subst hx0
      rfl
    · simp only [putUvarintAux]
      by_cases h : x < 128
      · rw [if_pos h, if_pos h]
      · rw [if_neg h, if_neg h]
        have hdiv : x / 128 < x := Nat.div_lt_self (by omega) (by omega)
        exact congrArg _ (ih fuel' (x / 128) (by omega) (by omega))

/-- The natural unfolding of `binary.PutUvarint`'s loop. -/
theorem putUvarint_eq (x : Nat) :
    putUvarint x = if x < 128 then [x]
      else (x % 128 + 128) :: putUvarint (x / 128) := by
  rw [putUvarint, putUvarint]
  by_cases h : x < 128
  · rcases x with _ | x
    · rfl
    · simp only [putUvarintAux]
      rw [if_pos h, if_pos h]
  · rcases x with _ | x
    · omega
    · simp only [putUvarintAux]
      rw [if_neg h, if_neg h]
      have hdiv : (x + 1) / 128 < x + 1 := Nat.div_lt_self (by omega) (by omega)
      exact congrArg _ (putUvarintAux_congr x ((x + 1) / 128) ((x + 1) / 128) (by omega) (by omega))

/-- `binary.PutVarint` for a non-negative value: the zig-zag image of
`n ≥ 0` is `2 * n`. -/
def putVarint (n : Nat) : List Nat := putUvarint (2 * n)

/-- The loop of `binary.ReadUvarint` over a byte reader positioned on
`data`: `x` and `s` are the accumulator and shift, `i` the iteration
index.  Returns the decoded value and the number of bytes consumed;
`none` models the `byteReader.ReadByte` index panic when the buffer runs
out.  After 10 iterations, or on a terminal byte that overflows 64 bits,
`ReadUvarint` reports `errOverflow` together with the partial value --
and `getKey` ignores the error, so the partial value is what flows on. -/
def readUvarintLoop : List Nat → Nat → Nat → Nat → Option (Nat × Nat)
  | [], x, _s, i => if 10 ≤ i then some (x, i) else none
  | b :: rest, x, s, i =>
    if 10 ≤ i then some (x, i)
    else if b < 128 then
      if i = 9 ∧ 1 < b then some (x, i + 1)
      else some (x ||| (b <<< s), i + 1)
    else readUvarintLoop rest (x ||| ((b % 128) <<< s)) (s + 7) (i + 1)

/-- `binary.ReadUvarint` from the start of `data`. -/
def readUvarint (data : List Nat) : Option (Nat × Nat) :=
  readUvarintLoop data 0 0 0

theorem putUvarint_ne_nil (x : Nat) : putUvarint x ≠ [] := by
  rw [putUvarint_eq]
  split <;> simp

theorem putUvarint_small (x : Nat) (h : x < 128) : putUvarint x = [x] := by
  rw [putUvarint_eq]; simp [h]

/-- Number of bytes of a uvarint: `n ≥ 1` bytes cover values below
`2 ^ (7 * n)`. -/
theorem putUvarint_length_le (x : Nat) : ∀ (n : Nat), 1 ≤ n → x < 2 ^ (7 * n) →
    (putUvarint x).length ≤ n := by
  induction x using Nat.strong_induction_on with
  | _ x ih =>
    intro n h1 hx
    rw [putUvarint_eq]
    split
    · simp only [List.length_cons, List.length_nil]
      omega
    case isFalse h =>
      have hn2 : 2 ≤ n := by
        by_contra hc
        push_neg at hc
        interval_cases n
        norm_num at hx
        omega
      have hpow : 2 ^ (7 * (n - 1)) * 128 = 2 ^ (7 * n) := by
        rw [show (128 : Nat) = 2 ^ 7 by norm_num, ← Nat.pow_add]
        congr 1
        omega
      have hdiv : x / 128 < 2 ^ (7 * (n - 1)) := by
        rw [Nat.div_lt_iff_lt_mul (by norm_num)]
        omega
      have := ih (x / 128) (Nat.div_lt_self (by omega) (by omega)) (n - 1) (by omega) hdiv
      simp only [List.length_cons]
      omega

/-- All bytes produced by `putUvarint` are bytes. -/
theorem putUvarint_bytes (x : Nat) : ∀ b ∈ putUvarint x, b < 256 := by
  induction x using Nat.strong_induction_on with
  | _ x ih =>
    intro b hb
    rw [putUvarint_eq] at hb
    split at hb
    · simp at hb; omega
    · rcases List.mem_cons.mp hb with h | h
      · have : x % 128 < 128 := Nat.mod_lt x (by omega)
        omega
      · exact ih (x / 128) (Nat.div_lt_self (by omega) (by omega)) b h

/-- Accumulating a shifted digit into low-disjoint bits is addition. -/
theorem lor_shiftLeft_eq_add (x d s : Nat) (hx : x < 2 ^ s) :
    x ||| (d <<< s) = x + d * 2 ^ s := by
  rw [Nat.shiftLeft_eq, Nat.lor_comm, Nat.mul_comm d (2 ^ s),
    ← Nat.mul_add_lt_is_or hx d]
  omega

/-- Decoding inverts encoding, with arbitrary trailing bytes, as long as
the encoded value needs at most `9 - i` further bytes (so the 10-byte
overflow guard never fires). -/
theorem readUvarintLoop_putUvarint (v : Nat) : ∀ (rest : List Nat) (x s i : Nat),
    i + (putUvarint v).length ≤ 9 → x < 2 ^ s →
    readUvarintLoop (putUvarint v ++ rest) x s i
      = some (x + v * 2 ^ s, i + (putUvarint v).length) := by
  induction v using Nat.strong_induction_on with
  | _ v ih =>
    intro rest x s i hlen hx
    rw [putUvarint_eq] at hlen ⊢
    by_cases h : v < 128
    · rw [if_pos h] at hlen ⊢
      simp only [List.length_cons, List.length_nil] at hlen ⊢
      simp only [List.cons_append, List.nil_append, readUvarintLoop]
      have h10 : ¬ (10 ≤ i) := by omega
      have h9 : ¬ (i = 9 ∧ 1 < v) := by omega
      simp only [if_neg h10, if_pos h, if_neg h9]
      rw [lor_shiftLeft_eq_add x v s hx]
    · rw [if_neg h] at hlen ⊢
      simp only [List.length_cons] at hlen ⊢
      simp only [List.cons_append, readUvarintLoop, List.append_eq]
      have h10 : ¬ (10 ≤ i) := by omega
      have hb : ¬ (v % 128 + 128 < 128) := by omega
      simp only [if_neg h10, if_neg hb]
      have hmod : (v % 128 + 128) % 128 = v % 128 := by omega
      rw [hmod]
      have hxd : x ||| ((v % 128) <<< s) = x + (v % 128) * 2 ^ s :=
        lor_shiftLeft_eq_add x (v % 128) s hx
      rw [hxd]
      have hx7 : x + (v % 128) * 2 ^ s < 2 ^ (s + 7) := by
        have h128 : v % 128 < 128 := Nat.mod_lt v (by omega)
        have : (v % 128) * 2 ^ s ≤ 127 * 2 ^ s := by
          apply Nat.mul_le_mul_right
          omega
        calc x + (v % 128) * 2 ^ s < 2 ^ s + 127 * 2 ^ s := by omega
        _ = 2 ^ (s + 7) := by rw [Nat.pow_add]; ring
      rw [ih (v / 128) (Nat.div_lt_self (by omega) (by omega)) rest _ _ _ (by omega) hx7]
      have hv : 128 * (v / 128) + v % 128 = v := Nat.div_add_mod v 128
      have hval : x + (v % 128) * 2 ^ s + v / 128 * 2 ^ (s + 7)
          = x + v * 2 ^ s := by
        conv_rhs => rw [← hv]
        rw [Nat.pow_add]
        ring
      rw [hval]
      congr 2
      omega

/-- `binary.ReadUvarint` inverts `binary.PutUvarint` for values of at
most nine encoded bytes (`v < 2 ^ 63`), with any trailing bytes. -/
theorem readUvarint_putUvarint (v : Nat) (rest : List Nat) (h : v < 2 ^ 63) :
    readUvarint (putUvarint v ++ rest) = some (v, (putUvarint v).length) := by
  have hlen : (putUvarint v).length ≤ 9 :=
    putUvarint_length_le v 9 (by omega) (by norm_num at h ⊢; omega)
  rw [readUvarint, readUvarintLoop_putUvarint v rest 0 0 0 (by omega) (by norm_num)]
  simp

/-! ### Little-endian machine integers

The Go code writes and reads the header, the hash slots and the key
offsets as raw native-endian machine words.  The model fixes the byte
order to little-endian (the order on every platform the package's mmap
code supports). -/

/-- `w`-byte little-endian rendering of `x` (truncating to `w` bytes,
like a store of a machine word). -/
def le : Nat → Nat → List Nat
  | 0, _ => []
  | w + 1, x => x % 256 :: le w (x / 256)

/-- Read a `w`-byte little-endian integer from the front of `l`
(reading zeros past the end; real loads never run past the mapping in
the states the theorems quantify over). -/
def readLE : Nat → List Nat → Nat
  | 0, _ => 0
  | _ + 1, [] => 0
  | w + 1, b :: rest => b + 256 * readLE w rest

theorem le_length (w x : Nat) : (le w x).length = w := by
  induction w generalizing x with
  | zero => rfl
  | succ w ih => simp [le, ih]

theorem le_bytes (w x : Nat) : ∀ b ∈ le w x, b < 256 := by
  induction w generalizing x with
  | zero => simp [le]
  | succ w ih =>
    intro b hb
    rcases List.mem_cons.mp hb with h | h
    · have : x % 256 < 256 := Nat.mod_lt x (by omega)
      omega
    · exact ih (x / 256) b h

theorem readLE_le (w x : Nat) (rest : List Nat) (h : x < 256 ^ w) :
    readLE w (le w x ++ rest) = x := by
  induction w generalizing x rest with
  | zero =>
    interval_cases x
    rfl
  | succ w ih =>
    simp only [le, List.cons_append, readLE, List.append_eq]
    rw [ih (x / 256) rest (by rw [Nat.div_lt_iff_lt_mul (by norm_num)]; rw [Nat.pow_succ] at h; omega)]
    omega

/-! ### The table (`type table struct` in table.go)

The arena's four section views become four lists; `numItems`,
`valueSize`, `keyOffset` and `length` are the corresponding struct
fields.  (The scratch `keyDataReader` is modelled statelessly inside
`getKey`.) -/

structure Table where
  valueSize : Nat
  numItems : Nat
  hashes : List Nat
  keys : List Nat
  values : List Nat
  keyData : List Nat
  keyOffset : Nat
  length : Nat
deriving Repr, DecidableEq

/-- `roundUp` from file.go: `(length + (align-1)) & ^(align-1)`.  For the
power-of-two alignments the code uses this masks the low bits away,
i.e. subtracts the remainder mod `align`. -/
def roundUp (len align : Nat) : Nat :=
  (len + (align - 1)) - (len + (align - 1)) % align

/-- `offsets` from file.go, with the Go sizes inlined:
`unsafe.Sizeof(header{}) = 16`, `Sizeof(hash(0)) = 4`,
`Sizeof(keyOffset(0)) = Alignof(keyOffset(0)) = 8`,
`Sizeof(stringLength(0)) = 4`. -/
def offsets (numItems valueSize totalKeyLength : Nat) :
    Nat × Nat × Nat × Nat × Nat :=
  let hashes := 16
  let keys := roundUp (hashes + 4 * numItems) 8
  let values := keys + 8 * numItems
  let keyData := values + valueSize * numItems
  let length := keyData + totalKeyLength + 4 * numItems
  (hashes, keys, values, keyData, length)

/-- Bit length of `x`, structurally recursive on a fuel of 64 bits
(enough for every Go `uint`). -/
def bitLenAux : Nat → Nat → Nat
  | 0, _ => 0
  | fuel + 1, x => if x = 0 then 0 else bitLenAux fuel (x / 2) + 1

/-- The capacity rounding in `New`:
`1 << (64 - bits.LeadingZeros(uint(numItems-1)))` on a 64-bit platform,
with the shift reduced mod `2 ^ 64` as Go's `uint` arithmetic does.
`64 - LeadingZeros(m)` is the bit length of `m`. -/
def newNumItems (n : Nat) : Nat :=
  (1 <<< bitLenAux 64 (n - 1)) % 2 ^ 64

/-- `New` from table.go: the zero-initialised arena and its four section
views.  The view lengths are exactly those the Go code installs in each
slice header. -/
def New (numItems valueSize totalKeyLength : Nat) : Table :=
  let c := newNumItems numItems
  let off := offsets c valueSize totalKeyLength
  let keyDataOff := off.2.2.2.1
  let len := off.2.2.2.2
  { valueSize := valueSize
    numItems := c
    hashes := List.replicate c 0
    keys := List.replicate c 0
    values := List.replicate (c * valueSize) 0
    keyData := List.replicate (len - keyDataOff) 0
    keyOffset := 0
    length := len }

/-- `table.Cap`: `len(t.hashes)`. -/
def Table.cap (t : Table) : Nat := t.hashes.length

/-- Length in bytes of the key-data record for `key`:
varint-encoded length followed by the raw bytes. -/
def recLen (key : Key) : Nat := (putVarint key.length).length + key.length

/-- The encoded key-data record for `key`. -/
def encKey (key : Key) : List Nat := putVarint key.length ++ key

/-- `table.addKey`: write the varint length then the key bytes at the
write cursor, returning the original cursor as the key's offset.
`binary.PutVarint` panics when the remaining buffer cannot hold the
varint (modelled as `none`); the `copy` of the key bytes truncates
silently, exactly as `writeAt` does. -/
def Table.addKey (t : Table) (key : Key) : Option (Table × Nat) :=
  let start := t.keyOffset
  let enc := putVarint key.length
  if start + enc.length ≤ t.keyData.length then
    let kd := writeAt t.keyData start enc
    let kd := writeAt kd (start + enc.length) key
    some ({ t with keyData := kd, keyOffset := start + enc.length + key.length },
      start)
  else none

/-- `table.getKey`: decode the varint length at `offset` in the key-data
region and return the raw bytes after it.  `none` models the panics of
the Go code on a corrupt record: reslicing past the end, `ReadByte`
past the end, a negative decoded length (odd zig-zag image), or a
record extending past the region. -/
def getKeyFrom (kd : List Nat) (offset : Nat) : Option Key :=
  if offset ≤ kd.length then
    match readUvarint (kd.drop offset) with
    | none => none
    | some (uv, consumed) =>
      if uv % 2 = 0 ∧ offset + consumed + uv / 2 ≤ kd.length then
        some ((kd.drop (offset + consumed)).take (uv / 2))
      else none
  else none

/-- `table.getKey` reads only the key-data region. -/
def Table.getKey (t : Table) (offset : Nat) : Option Key :=
  getKeyFrom t.keyData offset

/-- One advance of the probe cursor (`cursor++; if cursor == l { cursor = 0 }`). -/
def advance (cursor l : Nat) : Nat :=
  if cursor + 1 = l then 0 else cursor + 1

/-- The probe loop of `table.find`, with `fuel` counting the slots left
to examine before the cursor would return to its start.  `find` calls it
with `fuel = numItems`, matching the Go loop exactly: the code examines
`numItems` successive slots and panics ("out of space!", modelled as
`none`) when the cursor comes back to its start.  `none` also models a
`getKey` panic on a corrupt record reached through a matching hash. -/
def Table.findLoop (t : Table) (key : Key) (hashVal : Nat) :
    Nat → Nat → Option (Nat × Bool)
  | 0, _ => none
  | fuel + 1, cursor =>
    if t.hashes.getD cursor 0 = 0 then some (cursor, false)
    else if t.hashes.getD cursor 0 = hashVal then
      match t.getKey (t.keys.getD cursor 0) with
      | none => none
      | some k => if k = key then some (cursor, true)
          else t.findLoop key hashVal fuel (advance cursor t.numItems)
    else t.findLoop key hashVal fuel (advance cursor t.numItems)

/-- `table.find`: start at `int(hashVal) & (l - 1)` and probe linearly. -/
def Table.find (t : Table) (key : Key) (hashVal : Nat) : Option (Nat × Bool) :=
  t.findLoop key hashVal t.numItems (hashVal &&& (t.numItems - 1))

/-- `Write.Set`: find the slot; on a miss store the hash and add the key
record; in both cases copy `valueSize` bytes of the value into the slot's
value section.  (The Go caller passes an `unsafe.Pointer`; the slice
conjured from it has length `valueSize`, hence `val.take t.valueSize`.)
`none` models the find panic or the `PutVarint` panic. -/
def Table.set (t : Table) (key : Key) (val : List Nat) (hashVal : Nat) :
    Option Table :=
  match t.find key hashVal with
  | none => none
  | some (index, found) =>
    let step : Option Table :=
      if found then some t
      else match t.addKey key with
        | none => none
        | some (t', off) =>
          some { t' with hashes := t'.hashes.set index hashVal
                         keys := t'.keys.set index off }
    match step with
    | none => none
    | some t1 =>
      some { t1 with
        values := writeAt t1.values (index * t1.valueSize) (val.take t1.valueSize) }

/-- `table.GetPtr` on a non-nil receiver: the returned pointer exposes
the `valueSize` bytes at the slot.  `some none` is the `(nil, false)`
miss; the outer `none` is the find panic. -/
def Table.getPtr (t : Table) (key : Key) (hashVal : Nat) :
    Option (Option (List Nat)) :=
  match t.find key hashVal with
  | none => none
  | some (index, found) =>
    if found then some (some (seg t.values (index * t.valueSize) t.valueSize))
    else some none

/-- The 32-bit fingerprint `hash(aeshash.Hash(key))`: the external hash
truncated to `uint32`.  No zero-substitution is applied -- the code
stores and compares this raw value. -/
def fingerprint (hf : Key → Nat) (key : Key) : Nat := hf key % 2 ^ 32

/-- `Write.Set` with the hash computed from the key, as the method does. -/
def setH (hf : Key → Nat) (t : Table) (key : Key) (val : List Nat) :
    Option Table :=
  t.set key val (fingerprint hf key)

/-- `table.GetPtr` with the hash computed from the key.  The receiver is
an `Option Table`: the method returns `(nil, false)` on a nil receiver
before hashing. -/
def getPtrH (hf : Key → Nat) (t : Option Table) (key : Key) :
    Option (Option (List Nat)) :=
  match t with
  | none => some none
  | some t => t.getPtr key (fingerprint hf key)

/-- A sequence of `Set` calls. -/
def insertAll (hf : Key → Nat) (t : Table) (ps : List (Key × List Nat)) :
    Option Table :=
  ps.foldlM (fun t p => setH hf t p.1 p.2) t

/-! ### Serialization (`Write.WriteTo`) and loading (`newFromData`)

`WriteTo` writes the 16 header bytes, then the raw `t.length` arena
bytes.  The arena starts with 16 bytes the section offsets skip (they
already account for the header), then the hashes, alignment padding,
keys, values and key-data sections; unwritten arena bytes are zero. -/

/-- Little-endian rendering of a list of `w`-byte machine words. -/
def leList (w : Nat) (l : List Nat) : List Nat := l.flatMap (le w)

/-- The byte stream `Write.WriteTo` produces. -/
def Table.writeToBytes (t : Table) : List Nat :=
  let off := offsets t.numItems t.valueSize 0
  let keysOff := off.2.1
  le 8 t.numItems ++ le 8 t.valueSize ++
    ((List.replicate 16 0 ++
      leList 4 t.hashes ++
      List.replicate (keysOff - (16 + 4 * t.numItems)) 0 ++
      leList 8 t.keys ++
      t.values ++
      t.keyData).take t.length)

/-- `newFromData`: reinterpret the first 16 bytes as the header, then
install the four section views at `16 + offset` (the code adds
`unsafe.Sizeof(header{})` to offsets that already include the header).
The key-data view's declared length is `fileLength - keyDataOff`,
which reaches 16 bytes past the mapped file; the model clamps to the
bytes that exist. -/
def newFromData (data : List Nat) : Table :=
  let numItems := readLE 8 data
  let valueSize := readLE 8 (data.drop 8)
  let off := offsets numItems valueSize 0
  let hashesOff := off.1
  let keysOff := off.2.1
  let valuesOff := off.2.2.1
  let keyDataOff := off.2.2.2.1
  let base := data.drop 16
  { valueSize := valueSize
    numItems := numItems
    hashes := (List.range numItems).map fun i => readLE 4 (base.drop (hashesOff + 4 * i))
    keys := (List.range numItems).map fun i => readLE 8 (base.drop (keysOff + 8 * i))
    values := seg base valuesOff (numItems * valueSize)
    keyData := seg base keyDataOff (data.length - keyDataOff)
    keyOffset := 0
    length := 0 }

/-! ### Probe-loop characterisation -/

/-- Slot `i` is occupied (its stored fingerprint is not the empty-slot
sentinel `0`). -/
def Table.occ (t : Table) (i : Nat) : Prop := t.hashes.getD i 0 ≠ 0

instance (t : Table) (i : Nat) : Decidable (t.occ i) := by
  unfold Table.occ; infer_instance

/-- The key stored at slot `i` (meaningful on occupied slots). -/
def Table.slotKey (t : Table) (i : Nat) : Option Key :=
  t.getKey (t.keys.getD i 0)

theorem advance_lt (cursor l : Nat) (h : cursor < l) : advance cursor l < l := by
  unfold advance
  split <;> omega

theorem advance_eq_mod (cursor l : Nat) (h : cursor < l) :
    advance cursor l = (cursor + 1) % l := by
  unfold advance
  split
  case isTrue heq => rw [heq, Nat.mod_self]
  case isFalse heq => rw [Nat.mod_eq_of_lt (by omega)]

theorem probe_shift (c cursor j : Nat) (_hc : 0 < c) :
    ((cursor + 1) % c + j) % c = (cursor + (j + 1)) % c := by
  rw [Nat.mod_add_mod]
  congr 1
  omega

/-- A slot the probe loop steps over without stopping: occupied, and
either the fingerprint differs or the stored key decodes and differs. -/
def Table.stepped (t : Table) (key : Key) (hashVal i : Nat) : Prop :=
  t.occ i ∧ (t.hashes.getD i 0 = hashVal →
    ∃ k, t.slotKey i = some k ∧ k ≠ key)

/-- A loop exit with `found = true` happened on a slot whose fingerprint
is `hashVal` and whose stored key decodes to the query key, reached by
stepping over prior slots. -/
theorem findLoop_true (t : Table) (key : Key) (hashVal : Nat) :
    ∀ (fuel cursor i : Nat), cursor < t.numItems →
    t.findLoop key hashVal fuel cursor = some (i, true) →
    t.hashes.getD i 0 = hashVal ∧ t.slotKey i = some key ∧
      ∃ d < fuel, i = (cursor + d) % t.numItems ∧
        ∀ j < d, t.stepped key hashVal ((cursor + j) % t.numItems) := by
  intro fuel
  induction fuel with
  | zero => intro cursor i _ h; simp [Table.findLoop] at h
  | succ fuel ih =>
    intro cursor i hcur h
    have hc : 0 < t.numItems := by omega
    rw [Table.findLoop] at h
    by_cases h0 : t.hashes.getD cursor 0 = 0
    · rw [if_pos h0] at h
      simp at h
    rw [if_neg h0] at h
    by_cases hh : t.hashes.getD cursor 0 = hashVal
    · rw [if_pos hh] at h
      rcases hk : t.getKey (t.keys.getD cursor 0) with _ | k
      · simp only [hk] at h
        exact Option.noConfusion h
      simp only [hk] at h
      by_cases hkey : k = key
      · rw [if_pos hkey] at h
        simp only [Option.some.injEq, Prod.mk.injEq] at h
        subst hkey
        refine ⟨h.1 ▸ hh, h.1 ▸ hk, 0, by omega, ?_, by omega⟩
        rw [Nat.add_zero, Nat.mod_eq_of_lt hcur, h.1]
      · rw [if_neg hkey] at h
        obtain ⟨hhi, hki, d, hd, hi, hsteps⟩ :=
          ih (advance cursor t.numItems) i (advance_lt _ _ hcur) h
        refine ⟨hhi, hki, d + 1, by omega, ?_, ?_⟩
        · rw [hi, advance_eq_mod _ _ hcur, probe_shift _ _ _ hc]
        · intro j hj
          rcases Nat.eq_zero_or_pos j with hj0 | hjpos
          · subst hj0
            rw [Nat.add_zero, Nat.mod_eq_of_lt hcur]
            exact ⟨h0, fun _ => ⟨k, hk, hkey⟩⟩
          · have := hsteps (j - 1) (by omega)
            rw [advance_eq_mod _ _ hcur, probe_shift _ _ _ hc] at this
            have hj1 : j - 1 + 1 = j := by omega
            rw [hj1] at this
            exact this
    · rw [if_neg hh] at h
      obtain ⟨hhi, hki, d, hd, hi, hsteps⟩ :=
        ih (advance cursor t.numItems) i (advance_lt _ _ hcur) h
      refine ⟨hhi, hki, d + 1, by omega, ?_, ?_⟩
      · rw [hi, advance_eq_mod _ _ hcur, probe_shift _ _ _ hc]
      · intro j hj
        rcases Nat.eq_zero_or_pos j with hj0 | hjpos
        · subst hj0
          rw [Nat.add_zero, Nat.mod_eq_of_lt hcur]
          exact ⟨h0, fun hhv => absurd hhv hh⟩
        · have := hsteps (j - 1) (by omega)
          rw [advance_eq_mod _ _ hcur, probe_shift _ _ _ hc] at this
          have hj1 : j - 1 + 1 = j := by omega
          rw [hj1] at this
          exact this

/-- A loop exit with `found = false` happened on an empty slot, reached
by stepping over occupied slots. -/
theorem findLoop_false (t : Table) (key : Key) (hashVal : Nat) :
    ∀ (fuel cursor i : Nat), cursor < t.numItems →
    t.findLoop key hashVal fuel cursor = some (i, false) →
    t.hashes.getD i 0 = 0 ∧
      ∃ d < fuel, i = (cursor + d) % t.numItems ∧
        ∀ j < d, t.stepped key hashVal ((cursor + j) % t.numItems) := by
  intro fuel
  induction fuel with
  | zero => intro cursor i _ h; simp [Table.findLoop] at h
  | succ fuel ih =>
    intro cursor i hcur h
    have hc : 0 < t.numItems := by omega
    rw [Table.findLoop] at h
    by_cases h0 : t.hashes.getD cursor 0 = 0
    · rw [if_pos h0] at h
      simp only [Option.some.injEq, Prod.mk.injEq] at h
      refine ⟨h.1 ▸ h0, 0, by omega, ?_, by omega⟩
      rw [Nat.add_zero, Nat.mod_eq_of_lt hcur, h.1]
    rw [if_neg h0] at h
    have hcont : ∀ (hrec : t.findLoop key hashVal fuel (advance cursor t.numItems) = some (i, false))
        (hstep0 : t.stepped key hashVal cursor),
        t.hashes.getD i 0 = 0 ∧
          ∃ d < fuel + 1, i = (cursor + d) % t.numItems ∧
            ∀ j < d, t.stepped key hashVal ((cursor + j) % t.numItems) := by
      intro hrec hstep0
      obtain ⟨hhi, d, hd, hi, hsteps⟩ := ih (advance cursor t.numItems) i (advance_lt _ _ hcur) hrec
      refine ⟨hhi, d + 1, by omega, ?_, ?_⟩
      · rw [hi, advance_eq_mod _ _ hcur, probe_shift _ _ _ hc]
      · intro j hj
        rcases Nat.eq_zero_or_pos j with hj0 | hjpos
        · subst hj0
          rw [Nat.add_zero, Nat.mod_eq_of_lt hcur]
          exact hstep0
        · have := hsteps (j - 1) (by omega)
          rw [advance_eq_mod _ _ hcur, probe_shift _ _ _ hc] at this
          have hj1 : j - 1 + 1 = j := by omega
          rw [hj1] at this
          exact this
    by_cases hh : t.hashes.getD cursor 0 = hashVal
    · rw [if_pos hh] at h
      rcases hk : t.getKey (t.keys.getD cursor 0) with _ | k
      · simp only [hk] at h
        exact Option.noConfusion h
      simp only [hk] at h
      by_cases hkey : k = key
      · rw [if_pos hkey] at h
        simp at h
      · rw [if_neg hkey] at h
        exact hcont h ⟨h0, fun _ => ⟨k, hk, hkey⟩⟩
    · rw [if_neg hh] at h
      exact hcont h ⟨h0, fun hhv => absurd hhv hh⟩

/-- A loop failure (`panic("out of space!")`): provided every occupied
slot's key record decodes, the loop stepped over `fuel` occupied,
non-matching slots. -/
theorem findLoop_none (t : Table) (key : Key) (hashVal : Nat) :
    ∀ (fuel cursor : Nat), cursor < t.numItems →
    (∀ i, i < t.numItems → t.occ i → ∃ k, t.slotKey i = some k) →
    t.findLoop key hashVal fuel cursor = none →
    ∀ j < fuel, t.stepped key hashVal ((cursor + j) % t.numItems) := by
  intro fuel
  induction fuel with
  | zero => intro cursor _ _ _ j hj; omega
  | succ fuel ih =>
    intro cursor hcur hvalid h j hj
    have hc : 0 < t.numItems := by omega
    rw [Table.findLoop] at h
    by_cases h0 : t.hashes.getD cursor 0 = 0
    · rw [if_pos h0] at h
      exact Option.noConfusion h
    rw [if_neg h0] at h
    have hstep_tail : t.findLoop key hashVal fuel (advance cursor t.numItems) = none →
        t.stepped key hashVal cursor →
        t.stepped key hashVal ((cursor + j) % t.numItems) := by
      intro hrec hstep0
      rcases Nat.eq_zero_or_pos j with hj0 | hjpos
      · subst hj0
        rw [Nat.add_zero, Nat.mod_eq_of_lt hcur]
        exact hstep0
      · have := ih (advance cursor t.numItems) (advance_lt _ _ hcur) hvalid hrec (j - 1) (by omega)
        rw [advance_eq_mod _ _ hcur, probe_shift _ _ _ hc] at this
        have hj1 : j - 1 + 1 = j := by omega
        rw [hj1] at this
        exact this
    by_cases hh : t.hashes.getD cursor 0 = hashVal
    · rw [if_pos hh] at h
      rcases hk : t.getKey (t.keys.getD cursor 0) with _ | k
      · obtain ⟨k, hsk⟩ := hvalid cursor hcur h0
        rw [Table.slotKey, hk] at hsk
        exact Option.noConfusion hsk
      simp only [hk] at h
      by_cases hkey : k = key
      · rw [if_pos hkey] at h
        exact Option.noConfusion h
      · rw [if_neg hkey] at h
        exact hstep_tail h ⟨h0, fun _ => ⟨k, by rw [Table.slotKey, hk], hkey⟩⟩
    · rw [if_neg hh] at h
      exact hstep_tail h ⟨h0, fun hhv => absurd hhv hh⟩

/-- If the `d` slots along the probe path from `cursor` are stepped
over and the `d`-th slot holds a matching fingerprint and key, the loop
returns that slot with `found = true`. -/
theorem findLoop_reaches (t : Table) (key : Key) (hashVal : Nat) :
    ∀ (d fuel cursor : Nat), cursor < t.numItems → d < fuel →
    (∀ j < d, t.stepped key hashVal ((cursor + j) % t.numItems)) →
    t.hashes.getD ((cursor + d) % t.numItems) 0 = hashVal →
    t.slotKey ((cursor + d) % t.numItems) = some key →
    hashVal ≠ 0 →
    t.findLoop key hashVal fuel cursor = some ((cursor + d) % t.numItems, true) := by
  intro d
  induction d with
  | zero =>
    intro fuel cursor hcur hfuel _ hh hsk hv0
    rcases fuel with _ | fuel
    · omega
    have heq : (cursor + 0) % t.numItems = cursor := by
      rw [Nat.add_zero, Nat.mod_eq_of_lt hcur]
    rw [heq] at hh hsk ⊢
    rw [Table.findLoop, if_neg (by rw [hh]; exact hv0), if_pos hh]
    rw [Table.slotKey] at hsk
    simp only [hsk, if_true]
  | succ d ih =>
    intro fuel cursor hcur hfuel hsteps hh hsk hv0
    have hc : 0 < t.numItems := by omega
    rcases fuel with _ | fuel
    · omega
    have hstep0 := hsteps 0 (by omega)
    rw [Nat.add_zero, Nat.mod_eq_of_lt hcur] at hstep0
    obtain ⟨hocc0, hmis0⟩ := hstep0
    have hrec : t.findLoop key hashVal fuel (advance cursor t.numItems)
        = some ((cursor + (d + 1)) % t.numItems, true) := by
      have hcur' : advance cursor t.numItems < t.numItems := advance_lt _ _ hcur
      have hshift : ∀ j, (advance cursor t.numItems + j) % t.numItems
          = (cursor + (j + 1)) % t.numItems := by
        intro j
        rw [advance_eq_mod _ _ hcur, probe_shift _ _ _ hc]
      have := ih fuel (advance cursor t.numItems) hcur' (by omega)
        (fun j hj => by rw [hshift j]; exact hsteps (j + 1) (by omega))
        (by rw [hshift d]; exact hh)
        (by rw [hshift d]; exact hsk)
        hv0
      rw [hshift d] at this
      exact this
    rw [Table.findLoop, if_neg hocc0]
    by_cases hh0 : t.hashes.getD cursor 0 = hashVal
    · rw [if_pos hh0]
      obtain ⟨k, hks, hkne⟩ := hmis0 hh0
      rw [Table.slotKey] at hks
      simp only [hks, if_neg hkne]
      exact hrec
    · rw [if_neg hh0]
      exact hrec

/-- If some slot within `fuel` probes of `cursor` is empty and no
occupied slot stores the query key, the loop stops at an empty slot
with `found = false`. -/
theorem findLoop_miss (t : Table) (key : Key) (hashVal : Nat) :
    ∀ (fuel cursor : Nat), cursor < t.numItems →
    (∃ j < fuel, ¬ t.occ ((cursor + j) % t.numItems)) →
    (∀ i, i < t.numItems → t.occ i → ∃ k, t.slotKey i = some k ∧ k ≠ key) →
    ∃ i, t.findLoop key hashVal fuel cursor = some (i, false) ∧
      ¬ t.occ i ∧ i < t.numItems := by
  intro fuel
  induction fuel with
  | zero => intro cursor _ h _; omega
  | succ fuel ih =>
    intro cursor hcur hempty habsent
    have hc : 0 < t.numItems := by omega
    by_cases h0 : t.hashes.getD cursor 0 = 0
    · refine ⟨cursor, ?_, by rw [Table.occ]; omega, hcur⟩
      rw [Table.findLoop, if_pos h0]
    · have hocc : t.occ cursor := h0
      obtain ⟨j, hj, hje⟩ := hempty
      have hjpos : 0 < j := by
        rcases Nat.eq_zero_or_pos j with hj0 | hjp
        · subst hj0
          rw [Nat.add_zero, Nat.mod_eq_of_lt hcur] at hje
          exact absurd hocc hje
        · exact hjp
      have hempty' : ∃ j' < fuel, ¬ t.occ ((advance cursor t.numItems + j') % t.numItems) := by
        refine ⟨j - 1, by omega, ?_⟩
        rw [advance_eq_mod _ _ hcur, probe_shift _ _ _ hc]
        have hj1 : j - 1 + 1 = j := by omega
        rw [hj1]
        exact hje
      obtain ⟨i, hfind, hie, hilt⟩ := ih (advance cursor t.numItems) (advance_lt _ _ hcur) hempty' habsent
      refine ⟨i, ?_, hie, hilt⟩
      rw [Table.findLoop, if_neg h0]
      by_cases hh : t.hashes.getD cursor 0 = hashVal
      · rw [if_pos hh]
        obtain ⟨k, hks, hkne⟩ := habsent cursor hcur hocc
        rw [Table.slotKey] at hks
        simp only [hks, if_neg hkne]
        exact hfind
      · rw [if_neg hh]
        exact hfind

/-! ### Key records in the key-data region -/

/-- The record for `k` sits at offset `off` of the key-data region. -/
def storedAt (kd : List Nat) (off : Nat) (k : Key) : Prop :=
  seg kd off (recLen k) = encKey k ∧ off + recLen k ≤ kd.length

theorem encKey_length (k : Key) : (encKey k).length = recLen k := by
  simp [encKey, recLen, List.length_append]

theorem recLen_pos (k : Key) : 0 < recLen k := by
  rw [recLen, putVarint]
  rcases h : putUvarint (2 * k.length) with _ | ⟨a, l⟩
  · exact absurd h (putUvarint_ne_nil _)
  · simp

/-- Splitting a segment. -/
theorem seg_add (l : List Nat) (a m n : Nat) :
    seg l a (m + n) = seg l a m ++ seg l (a + m) n := by
  simp only [seg]
  rw [List.take_add, List.drop_drop]

/-- A segment only depends on the prefix containing it. -/
theorem seg_eq_of_take_eq (l l' : List Nat) (a n m : Nat)
    (hm : a + n ≤ m) (h : l.take m = l'.take m) :
    seg l a n = seg l' a n := by
  have key : ∀ x : List Nat, seg x a n = seg (x.take m) a n := by
    intro x
    simp only [seg, List.drop_take]
    rw [List.take_take]
    congr 1
    omega
  rw [key l, key l', h]

/-- Decoding a stored record returns the key. -/
theorem getKeyFrom_storedAt (kd : List Nat) (off : Nat) (k : Key)
    (hs : storedAt kd off k) (hsmall : k.length < 2 ^ 62) :
    getKeyFrom kd off = some k := by
  obtain ⟨hseg, hle⟩ := hs
  have hrl := recLen_pos k
  have hoff : off ≤ kd.length := by omega
  have hdrop : kd.drop off = encKey k ++ kd.drop (off + recLen k) := by
    conv_lhs => rw [← List.take_append_drop (recLen k) (kd.drop off)]
    rw [List.drop_drop]
    congr 1
  have h63 : 2 * k.length < 2 ^ 63 := by
    have : (2:Nat) ^ 62 * 2 = 2 ^ 63 := by norm_num
    omega
  have hread : readUvarint (kd.drop off)
      = some (2 * k.length, (putUvarint (2 * k.length)).length) := by
    rw [hdrop, encKey, putVarint, List.append_assoc]
    exact readUvarint_putUvarint (2 * k.length) (k ++ kd.drop (off + recLen k)) h63
  rw [getKeyFrom, if_pos hoff]
  simp only [hread]
  have hvl : (putUvarint (2 * k.length)).length + k.length = recLen k := by
    rw [recLen, putVarint]
  have heven : 2 * k.length % 2 = 0 := by omega
  have hhalf : 2 * k.length / 2 = k.length := by omega
  rw [if_pos (And.intro heven (by rw [hhalf]; omega))]
  congr 1
  rw [hhalf]
  have hdrop2 : kd.drop (off + (putUvarint (2 * k.length)).length)
      = k ++ kd.drop (off + recLen k) := by
    have : kd.drop (off + (putUvarint (2 * k.length)).length)
        = (kd.drop off).drop (putUvarint (2 * k.length)).length := by
      rw [List.drop_drop]
    rw [this, hdrop, encKey, putVarint, List.append_assoc, List.drop_left]
  rw [hdrop2]
  exact List.take_left' rfl

/-- `writeAt` leaves any prefix at or before the write position alone. -/
theorem writeAt_take_le (l : List Nat) (pos a : Nat) (src : List Nat)
    (hp : pos ≤ l.length) (ha : a ≤ pos) :
    (writeAt l pos src).take a = l.take a := by
  have h1 : (writeAt l pos src).take a = ((writeAt l pos src).take pos).take a := by
    rw [List.take_take]
    congr 1
    omega
  rw [h1, writeAt_take l pos src hp, List.take_take]
  congr 1
  omega

/-- A stored record below a write position survives the write. -/
theorem storedAt_writeAt (kd : List Nat) (off : Nat) (k : Key)
    (pos : Nat) (src : List Nat)
    (hs : storedAt kd off k) (hp : pos ≤ kd.length)
    (hbelow : off + recLen k ≤ pos) :
    storedAt (writeAt kd pos src) off k := by
  obtain ⟨hseg, hle⟩ := hs
  constructor
  · rw [seg_eq_of_take_eq (writeAt kd pos src) kd off (recLen k) pos hbelow
      (writeAt_take_le kd pos pos src hp (by omega))]
    exact hseg
  · rw [writeAt_length kd pos src hp]
    omega

/-- What `addKey` does: it returns the old cursor, advances the cursor by
the record length, writes the record there, leaves everything below the
old cursor (and all other fields) alone. -/
theorem addKey_spec (t : Table) (key : Key)
    (henc : t.keyOffset + (putVarint key.length).length ≤ t.keyData.length) :
    ∃ t', t.addKey key = some (t', t.keyOffset) ∧
      t'.keyOffset = t.keyOffset + recLen key ∧
      t'.keyData.length = t.keyData.length ∧
      t'.hashes = t.hashes ∧ t'.keys = t.keys ∧ t'.values = t.values ∧
      t'.numItems = t.numItems ∧ t'.valueSize = t.valueSize ∧
      t'.length = t.length ∧
      t'.keyData.take t.keyOffset = t.keyData.take t.keyOffset ∧
      (t.keyOffset + recLen key ≤ t.keyData.length →
        storedAt t'.keyData t.keyOffset key) := by
  rw [Table.addKey]
  simp only [if_pos henc]
  set start := t.keyOffset with hstart
  set enc := putVarint key.length with hterm
  refine ⟨_, rfl, ?_, ?_, rfl, rfl, rfl, rfl, rfl, rfl, ?_, ?_⟩
  · simp only
    rw [recLen, ← hterm]
    omega
  · simp only
    rw [writeAt_length _ _ _ (by rw [writeAt_length _ _ _ (by omega)]; omega),
      writeAt_length _ _ _ (by omega)]
  · simp only
    rw [writeAt_take_le _ _ _ _ (by rw [writeAt_length _ _ _ (by omega)]; omega) (by omega),
      writeAt_take_le _ _ _ _ (by omega) (by omega)]
  · intro hfit
    simp only
    have hlen1 : (writeAt t.keyData start enc).length = t.keyData.length :=
      writeAt_length _ _ _ (by omega)
    have hrec : recLen key = enc.length + key.length := by rw [recLen]
    constructor
    · rw [hrec, seg_add _ start enc.length key.length]
      congr 1
      · rw [seg_eq_of_take_eq _ (writeAt t.keyData start enc) start enc.length
          (start + enc.length) (by omega)
          (writeAt_take _ _ _ (by omega))]
        exact writeAt_seg t.keyData start enc (by omega)
      · exact writeAt_seg (writeAt t.keyData start enc) (start + enc.length) key
          (by rw [hlen1]; omega)
    · rw [writeAt_length _ _ _ (by rw [hlen1]; omega), hlen1]
      omega

/-! ### The table invariant maintained by `Set` -/

theorem getD_zero_eq_getElem (l : List Nat) (i : Nat) (h : i < l.length) :
    l.getD i 0 = l[i] := by
  simp [List.getD_eq_getElem?_getD, List.getElem?_eq_getElem h]

/-- The home slot of a key: its fingerprint masked by `capacity - 1`. -/
def home (hf : Key → Nat) (c : Nat) (k : Key) : Nat :=
  fingerprint hf k &&& (c - 1)

theorem home_lt (hf : Key → Nat) (c : Nat) (k : Key) (hc : 0 < c) :
    home hf c k < c := by
  have h1 : fingerprint hf k &&& (c - 1) ≤ c - 1 := Nat.and_le_right
  rw [home]
  omega

/-- Slot `i` of `t` holds the pair `(k, v)`. -/
def holds (hf : Key → Nat) (t : Table) (i : Nat) (k : Key) (v : List Nat) : Prop :=
  t.hashes.getD i 0 = fingerprint hf k ∧
  storedAt t.keyData (t.keys.getD i 0) k ∧
  t.keys.getD i 0 + recLen k ≤ t.keyOffset ∧
  seg t.values (i * t.valueSize) t.valueSize = v

/-- The invariant tying a build-mode table to the list `ps` of pairs
inserted so far (pairwise-distinct keys, nonzero fingerprints). -/
structure Inv (hf : Key → Nat) (c vs B : Nat) (ps : List (Key × List Nat))
    (t : Table) : Prop where
  num : t.numItems = c
  vsz : t.valueSize = vs
  hlen : t.hashes.length = c
  klen : t.keys.length = c
  vlen : t.values.length = c * vs
  kdlen : t.keyData.length = B
  koff : t.keyOffset = (ps.map fun p => recLen p.1).sum
  koff_le : t.keyOffset ≤ B
  hbound : ∀ x ∈ t.hashes, x < 2 ^ 32
  kbound : ∀ x ∈ t.keys, x ≤ B
  count : t.hashes.countP (fun x => x != 0) = ps.length
  small : ∀ p ∈ ps, p.1.length < 2 ^ 62
  fpnz : ∀ p ∈ ps, fingerprint hf p.1 ≠ 0
  slots : ∀ i, i < c → t.occ i → ∃ p ∈ ps, holds hf t i p.1 p.2
  present : ∀ p ∈ ps, ∃ i, i < c ∧ holds hf t i p.1 p.2 ∧
    ∃ d, d < c ∧ i = (home hf c p.1 + d) % c ∧
      ∀ j, j < d → t.occ ((home hf c p.1 + j) % c)
  uniq : ∀ i j k, i < c → j < c → t.occ i → t.occ j →
    t.slotKey i = some k → t.slotKey j = some k → i = j

/-- Every occupied slot of an invariant-satisfying table decodes to the
key of the pair it holds. -/
theorem Inv.slotKey_of_holds {hf : Key → Nat} {c vs B : Nat}
    {ps : List (Key × List Nat)} {t : Table} (hinv : Inv hf c vs B ps t)
    {i : Nat} {k : Key} {v : List Nat} (hp : (k, v) ∈ ps)
    (hh : holds hf t i k v) : t.slotKey i = some k := by
  rw [Table.slotKey, Table.getKey]
  exact getKeyFrom_storedAt _ _ _ hh.2.1 (hinv.small (k, v) hp)

/-- Occupied slots decode to some key. -/
theorem Inv.valid {hf : Key → Nat} {c vs B : Nat}
    {ps : List (Key × List Nat)} {t : Table} (hinv : Inv hf c vs B ps t) :
    ∀ i, i < c → t.occ i → ∃ k, t.slotKey i = some k := by
  intro i hi hocc
  obtain ⟨p, hp, hh⟩ := hinv.slots i hi hocc
  exact ⟨p.1, hinv.slotKey_of_holds hp hh⟩

/-- If `q` was never inserted, no occupied slot decodes to `q`. -/
theorem Inv.absent {hf : Key → Nat} {c vs B : Nat}
    {ps : List (Key × List Nat)} {t : Table} (hinv : Inv hf c vs B ps t)
    {q : Key} (hq : q ∉ ps.map Prod.fst) :
    ∀ i, i < c → t.occ i → ∃ k, t.slotKey i = some k ∧ k ≠ q := by
  intro i hi hocc
  obtain ⟨p, hp, hh⟩ := hinv.slots i hi hocc
  refine ⟨p.1, hinv.slotKey_of_holds hp hh, ?_⟩
  intro hcontra
  exact hq (hcontra ▸ List.mem_map_of_mem Prod.fst hp)

/-- A table holding fewer pairs than its capacity has an empty slot. -/
theorem Inv.empty_slot {hf : Key → Nat} {c vs B : Nat}
    {ps : List (Key × List Nat)} {t : Table} (hinv : Inv hf c vs B ps t)
    (hroom : ps.length < c) : ∃ i, i < c ∧ ¬ t.occ i := by
  by_contra hall
  push_neg at hall
  have : ∀ x ∈ t.hashes, x ≠ 0 := by
    intro x hx
    obtain ⟨i, hi, hix⟩ := List.getElem_of_mem hx
    have hl := hinv.hlen
    have hocc := hall i (by omega)
    rw [Table.occ, getD_zero_eq_getElem t.hashes i hi, hix] at hocc
    exact hocc
  have hcnt : t.hashes.countP (fun x => x != 0) = t.hashes.length := by
    rw [List.countP_eq_length]
    intro a ha
    simpa using this a ha
  rw [hinv.count, hinv.hlen] at hcnt
  omega

/-- Reaching any slot along the probe ring. -/
theorem probe_covers (h i c : Nat) (hh : h < c) (hi : i < c) :
    ∃ j, j < c ∧ (h + j) % c = i := by
  refine ⟨(c + i - h) % c, Nat.mod_lt _ (by omega), ?_⟩
  rw [Nat.add_mod_mod]
  have he : h + (c + i - h) = c + i := by omega
  rw [he, Nat.add_comm c i, Nat.add_mod_right, Nat.mod_eq_of_lt hi]

theorem getD_set_self (l : List Nat) (i a : Nat) (h : i < l.length) :
    (l.set i a).getD i 0 = a := by
  rw [getD_zero_eq_getElem _ _ (by simpa using h)]
  simp

theorem getD_set_ne (l : List Nat) (i j a : Nat) (hne : i ≠ j) :
    (l.set i a).getD j 0 = l.getD j 0 := by
  by_cases hj : j < l.length
  · rw [getD_zero_eq_getElem _ _ (by simpa using hj), getD_zero_eq_getElem _ _ hj]
    exact List.getElem_set_ne hne _
  · rw [List.getD_eq_getElem?_getD, List.getD_eq_getElem?_getD,
      List.getElem?_eq_none (by simpa using hj),
      List.getElem?_eq_none (by omega)]

/-- A segment only depends on the suffix containing it. -/
theorem seg_eq_of_drop_eq (l l' : List Nat) (a n m : Nat)
    (hm : m ≤ a) (h : l.drop m = l'.drop m) :
    seg l a n = seg l' a n := by
  have key : ∀ x : List Nat, seg x a n = seg (x.drop m) (a - m) n := by
    intro x
    simp only [seg, List.drop_drop]
    congr 2
    omega
  rw [key l, key l', h]

/-- Segments disjoint from a fitting write are unchanged. -/
theorem writeAt_seg_frame (l : List Nat) (pos : Nat) (src : List Nat) (a n : Nat)
    (hfit : pos + src.length ≤ l.length)
    (hdisj : a + n ≤ pos ∨ pos + src.length ≤ a) :
    seg (writeAt l pos src) a n = seg l a n := by
  rcases hdisj with h | h
  · exact seg_eq_of_take_eq _ _ a n pos h (writeAt_take l pos src (by omega))
  · exact seg_eq_of_drop_eq _ _ a n (pos + src.length) h (writeAt_drop l pos src hfit)

/-- `holds` transfers to an updated table that leaves slot `i`'s hash,
key offset, value segment and everything below the old key cursor
untouched. -/
theorem holds_transfer {hf : Key → Nat} {t t3 : Table} {i : Nat}
    {k' : Key} {v' : List Nat}
    (hh : holds hf t i k' v')
    (Hhash : t3.hashes.getD i 0 = t.hashes.getD i 0)
    (Hkeys : t3.keys.getD i 0 = t.keys.getD i 0)
    (Hvs : t3.valueSize = t.valueSize)
    (Hkofle : t.keyOffset ≤ t3.keyOffset)
    (Hkdtake : t3.keyData.take t.keyOffset = t.keyData.take t.keyOffset)
    (Hkdlen : t.keyData.length ≤ t3.keyData.length)
    (Hseg : seg t3.values (i * t.valueSize) t.valueSize
      = seg t.values (i * t.valueSize) t.valueSize) :
    holds hf t3 i k' v' := by
  obtain ⟨h1, ⟨h2a, h2b⟩, h3, h4⟩ := hh
  refine ⟨by rw [Hhash, h1], ⟨?_, ?_⟩, by rw [Hkeys]; omega, ?_⟩
  · rw [Hkeys]
    rw [seg_eq_of_take_eq t3.keyData t.keyData _ _ t.keyOffset (by omega) Hkdtake]
    exact h2a
  · rw [Hkeys]
    omega
  · rw [Hvs, Hseg]
    exact h4

/-- Inserting a fresh key with a nonzero fingerprint into a table with
spare capacity and key-data budget succeeds and preserves the invariant. -/
theorem Inv.step {hf : Key → Nat} {c vs B : Nat} {ps : List (Key × List Nat)}
    {t : Table} (hinv : Inv hf c vs B ps t) {k : Key} {v : List Nat}
    (hnotin : k ∉ ps.map Prod.fst)
    (hfp : fingerprint hf k ≠ 0)
    (hsmall : k.length < 2 ^ 62)
    (hvlen : v.length = vs)
    (hroom : ps.length < c)
    (hbudget : t.keyOffset + recLen k ≤ B) :
    ∃ t', setH hf t k v = some t' ∧ Inv hf c vs B (ps ++ [(k, v)]) t' := by
  have hc : 0 < c := by omega
  have hnum := hinv.num
  have hcn : 0 < t.numItems := by omega
  have hstart : home hf c k < t.numItems := by
    rw [hnum]
    exact home_lt hf c k hc
  have habsent : ∀ i, i < t.numItems → t.occ i →
      ∃ k', t.slotKey i = some k' ∧ k' ≠ k := by
    intro i hi
    exact hinv.absent hnotin i (by omega)
  have hempties : ∃ j < t.numItems, ¬ t.occ ((home hf c k + j) % t.numItems) := by
    obtain ⟨e, he, hne⟩ := hinv.empty_slot hroom
    obtain ⟨j, hj, hje⟩ := probe_covers (home hf c k) e t.numItems (by omega) (by omega)
    exact ⟨j, hj, by rw [hje]; exact hne⟩
  obtain ⟨i₀, hfind, hi₀e, hi₀lt⟩ :=
    findLoop_miss t k (fingerprint hf k) t.numItems (home hf c k) (by omega) hempties habsent
  obtain ⟨hhz, d, hd, hieq, hsteps⟩ :=
    findLoop_false t k (fingerprint hf k) t.numItems (home hf c k) i₀ (by omega) hfind
  have hfindeq : t.find k (fingerprint hf k) = some (i₀, false) := by
    rw [Table.find]
    have hmask : fingerprint hf k &&& (t.numItems - 1) = home hf c k := by
      rw [hnum, home]
    rw [hmask]
    exact hfind
  have hrecsplit : recLen k = (putVarint k.length).length + k.length := rfl
  have henc : t.keyOffset + (putVarint k.length).length ≤ t.keyData.length := by
    have := hinv.kdlen
    omega
  obtain ⟨t1, haddk, hko1, hkdl1, hh1, hk1, hv1, hn1, hvs1, hl1, htake1, hstored1⟩ :=
    addKey_spec t k henc
  have hstored : storedAt t1.keyData t.keyOffset k := by
    apply hstored1
    rw [hinv.kdlen]
    exact hbudget
  have hi₀c : i₀ < c := by omega
  have hvsz := hinv.vsz
  have hvl2 : v.length = t.valueSize := by rw [hvsz]; exact hvlen
  have hvtake : v.take t.valueSize = v := List.take_of_length_le (by omega)
  have hvfit : i₀ * t.valueSize + v.length ≤ t.values.length := by
    rw [hinv.vlen, hvl2, hvsz]
    calc i₀ * vs + vs = (i₀ + 1) * vs := by ring
    _ ≤ c * vs := Nat.mul_le_mul_right vs (by omega)
  refine ⟨{ t1 with hashes := t1.hashes.set i₀ (fingerprint hf k)
                    keys := t1.keys.set i₀ t.keyOffset
                    values := writeAt t1.values (i₀ * t1.valueSize) (v.take t1.valueSize) },
    ?_, ?_⟩
  · rw [setH, Table.set, hfindeq]
    simp only [Bool.false_eq_true, if_false, haddk]
  -- the invariant for the updated table
  set t3 : Table := { t1 with hashes := t1.hashes.set i₀ (fingerprint hf k)
                              keys := t1.keys.set i₀ t.keyOffset
                              values := writeAt t1.values (i₀ * t1.valueSize) (v.take t1.valueSize) }
    with ht3
  have h3hashes : t3.hashes = t.hashes.set i₀ (fingerprint hf k) := by rw [ht3, hh1]
  have h3keys : t3.keys = t.keys.set i₀ t.keyOffset := by rw [ht3, hk1]
  have h3vals : t3.values = writeAt t.values (i₀ * t.valueSize) (v.take t.valueSize) := by
    rw [ht3, hv1, hvs1]
  have h3kd : t3.keyData = t1.keyData := rfl
  have h3koff : t3.keyOffset = t.keyOffset + recLen k := by rw [ht3]; exact hko1
  have h3num : t3.numItems = c := by rw [ht3, hn1, hnum]
  have h3vs : t3.valueSize = t.valueSize := by rw [ht3, hvs1]
  have h3kdtake : t3.keyData.take t.keyOffset = t.keyData.take t.keyOffset := by
    rw [h3kd]
    exact htake1
  have h3kdlen : t3.keyData.length = t.keyData.length := by rw [h3kd, hkdl1]
  have hi₀hl : i₀ < t.hashes.length := by rw [hinv.hlen]; omega
  have hi₀kl : i₀ < t.keys.length := by rw [hinv.klen]; omega
  have hgetD0 : t.hashes.getD i₀ 0 = 0 := by
    rw [Table.occ] at hi₀e
    omega
  have hocc3_hash : ∀ j, j ≠ i₀ → t3.hashes.getD j 0 = t.hashes.getD j 0 := by
    intro j hj
    rw [h3hashes]
    exact getD_set_ne _ _ _ _ (fun he => hj he.symm)
  have hocc3_of : ∀ j, t.occ j → t3.occ j := by
    intro j hj
    by_cases hji : j = i₀
    · subst hji
      rw [Table.occ, h3hashes, getD_set_self _ _ _ hi₀hl]
      exact hfp
    · rw [Table.occ, hocc3_hash j hji]
      exact hj
  have hocc3_inv : ∀ j, j ≠ i₀ → t3.occ j → t.occ j := by
    intro j hj hocc
    rw [Table.occ, hocc3_hash j hj] at hocc
    exact hocc
  have hocc3_i₀ : t3.occ i₀ := by
    rw [Table.occ, h3hashes, getD_set_self _ _ _ hi₀hl]
    exact hfp
  have hsegframe : ∀ j, j < c → j ≠ i₀ →
      seg t3.values (j * t.valueSize) t.valueSize
        = seg t.values (j * t.valueSize) t.valueSize := by
    intro j hj hne
    rw [h3vals]
    apply writeAt_seg_frame
    · rw [hvtake]
      exact hvfit
    · rw [hvtake, hvl2]
      rcases Nat.lt_or_ge j i₀ with hlt | hge
      · left
        calc j * t.valueSize + t.valueSize = (j + 1) * t.valueSize := by ring
        _ ≤ i₀ * t.valueSize := Nat.mul_le_mul_right _ (by omega)
      · right
        have hgt : i₀ + 1 ≤ j := by omega
        calc i₀ * t.valueSize + t.valueSize = (i₀ + 1) * t.valueSize := by ring
        _ ≤ j * t.valueSize := Nat.mul_le_mul_right _ hgt
  have hsegnew : seg t3.values (i₀ * t.valueSize) t.valueSize = v := by
    rw [h3vals, hvtake]
    have := writeAt_seg t.values (i₀ * t.valueSize) v hvfit
    rw [hvl2] at this
    exact this
  have htransfer : ∀ j p₁ p₂, j < c → j ≠ i₀ → holds hf t j p₁ p₂ → holds hf t3 j p₁ p₂ := by
    intro j p₁ p₂ hj hne hh
    apply holds_transfer hh (hocc3_hash j hne) _ h3vs _ h3kdtake (by omega) (hsegframe j hj hne)
    · rw [h3keys]
      exact getD_set_ne _ _ _ _ (fun he => hne he.symm)
    · rw [h3koff]
      omega
  have hholdsnew : holds hf t3 i₀ k v := by
    refine ⟨?_, ?_, ?_, ?_⟩
    · rw [h3hashes, getD_set_self _ _ _ hi₀hl]
    · rw [h3keys, getD_set_self _ _ _ hi₀kl, h3kd]
      exact hstored
    · rw [h3keys, getD_set_self _ _ _ hi₀kl, h3koff]
    · rw [h3vs]
      exact hsegnew
  have hslotkey3_new : t3.slotKey i₀ = some k := by
    rw [Table.slotKey, Table.getKey, h3keys, getD_set_self _ _ _ hi₀kl, h3kd]
    exact getKeyFrom_storedAt _ _ _ hstored hsmall
  have hslot3_old : ∀ x, x < c → x ≠ i₀ → t3.occ x →
      ∃ p ∈ ps, t3.slotKey x = some p.1 ∧ t.slotKey x = some p.1 ∧ holds hf t3 x p.1 p.2 := by
    intro x hx hne hocc
    obtain ⟨p, hp, hh⟩ := hinv.slots x hx (hocc3_inv x hne hocc)
    have hh3 : holds hf t3 x p.1 p.2 := htransfer x p.1 p.2 hx hne hh
    refine ⟨p, hp, ?_, hinv.slotKey_of_holds hp hh, hh3⟩
    rw [Table.slotKey, Table.getKey]
    exact getKeyFrom_storedAt _ _ _ hh3.2.1 (hinv.small p hp)
  refine { num := h3num, vsz := by rw [h3vs, hvsz],
           hlen := ?_, klen := ?_, vlen := ?_, kdlen := ?_,
           koff := ?_, koff_le := ?_, hbound := ?_, kbound := ?_,
           count := ?_, small := ?_, fpnz := ?_,
           slots := ?_, present := ?_, uniq := ?_ }
  · rw [h3hashes, List.length_set, hinv.hlen]
  · rw [h3keys, List.length_set, hinv.klen]
  · rw [ht3, hvs1, hv1, writeAt_length _ _ _ (by omega), hinv.vlen]
  · rw [h3kdlen, hinv.kdlen]
  · rw [h3koff, hinv.koff]
    simp [List.sum_append]
  · rw [h3koff]
    exact hbudget
  · intro x hx
    rw [h3hashes] at hx
    rcases List.mem_or_eq_of_mem_set hx with hmem | heq
    · exact hinv.hbound x hmem
    · rw [heq, fingerprint]
      exact Nat.mod_lt _ (by norm_num)
  · intro x hx
    rw [h3keys] at hx
    rcases List.mem_or_eq_of_mem_set hx with hmem | heq
    · exact hinv.kbound x hmem
    · have := recLen_pos k
      omega
  · rw [h3hashes, List.countP_set _ _ _ _ hi₀hl]
    rw [← getD_zero_eq_getElem t.hashes i₀ hi₀hl, hgetD0]
    simp only [List.length_append, List.length_cons, List.length_nil]
    rw [hinv.count]
    simp [hfp]
  · intro p hp
    rcases List.mem_append.mp hp with h | h
    · exact hinv.small p h
    · simp at h
      rw [h]
      exact hsmall
  · intro p hp
    rcases List.mem_append.mp hp with h | h
    · exact hinv.fpnz p h
    · simp at h
      rw [h]
      exact hfp
  · intro i hi hocc
    by_cases hii : i = i₀
    · subst hii
      exact ⟨(k, v), List.mem_append_right _ (by simp), hholdsnew⟩
    · obtain ⟨p, hp, _, _, hh3⟩ := hslot3_old i hi hii hocc
      exact ⟨p, List.mem_append_left _ hp, hh3⟩
  · intro p hp
    rcases List.mem_append.mp hp with h | h
    · obtain ⟨i, hi, hh, d', hd', hieq', hchain'⟩ := hinv.present p h
      have hocct : t.occ i := by
        rw [Table.occ, hh.1]
        exact hinv.fpnz p h
      have hne : i ≠ i₀ := by
        intro he
        rw [he, Table.occ, hgetD0] at hocct
        exact hocct rfl
      exact ⟨i, hi, htransfer i p.1 p.2 hi hne hh, d', hd', hieq',
        fun j hj => hocc3_of _ (hchain' j hj)⟩
    · simp at h
      subst h
      refine ⟨i₀, hi₀c, hholdsnew, d, by omega, ?_, ?_⟩
      · rw [hieq, hnum]
      · intro j hj
        have := (hsteps j hj).1
        rw [hnum] at this
        exact hocc3_of _ this
  · intro i j k' hi hj hocci hoccj hski hskj
    by_cases hii : i = i₀ <;> by_cases hjj : j = i₀
    · rw [hii, hjj]
    · subst hii
      rw [hslotkey3_new] at hski
      obtain ⟨p, hp, hsk3, _, _⟩ := hslot3_old j hj hjj hoccj
      rw [hsk3] at hskj
      have : k = p.1 := by
        have h1 : k' = k := by injection hski.symm
        have h2 : k' = p.1 := by injection hskj.symm
        rw [← h1, h2]
      exact absurd (this ▸ List.mem_map_of_mem Prod.fst hp) hnotin
    · subst hjj
      rw [hslotkey3_new] at hskj
      obtain ⟨p, hp, hsk3, _, _⟩ := hslot3_old i hi hii hocci
      rw [hsk3] at hski
      have : k = p.1 := by
        have h1 : k' = k := by injection hskj.symm
        have h2 : k' = p.1 := by injection hski.symm
        rw [← h1, h2]
      exact absurd (this ▸ List.mem_map_of_mem Prod.fst hp) hnotin
    · obtain ⟨p, hp, hsk3i, hski', _⟩ := hslot3_old i hi hii hocci
      obtain ⟨q, hq, hsk3j, hskj', _⟩ := hslot3_old j hj hjj hoccj
      have hkp : k' = p.1 := by
        rw [hsk3i] at hski
        injection hski.symm
      have hkq : k' = q.1 := by
        rw [hsk3j] at hskj
        injection hskj.symm
      exact hinv.uniq i j k' hi hj (hocc3_inv i hii hocci) (hocc3_inv j hjj hoccj)
        (by rw [hski', ← hkp]) (by rw [hskj', ← hkq])

/-- Cancelling the probe origin: two distinct in-range probe distances
reach distinct slots. -/
theorem probe_inj (h j d c : Nat) (hj : j < c) (hd : d < c)
    (heq : (h + j) % c = (h + d) % c) : j = d := by
  have hm : Nat.ModEq c (h + j) (h + d) := heq
  have hrefl : Nat.ModEq c h h := Nat.ModEq.refl h
  have := hrefl.add_left_cancel hm
  rw [Nat.ModEq, Nat.mod_eq_of_lt hj, Nat.mod_eq_of_lt hd] at this
  exact this

/-- On an invariant table, looking up an inserted key returns its value. -/
theorem Inv.getPtr_present {hf : Key → Nat} {c vs B : Nat}
    {ps : List (Key × List Nat)} {t : Table} (hinv : Inv hf c vs B ps t)
    {k : Key} {v : List Nat} (hp : (k, v) ∈ ps) (hlen : 0 < ps.length) :
    t.getPtr k (fingerprint hf k) = some (some v) := by
  have hcle : t.hashes.countP (fun x => x != 0) ≤ t.hashes.length :=
    List.countP_le_length _
  rw [hinv.count, hinv.hlen] at hcle
  have hc : 0 < c := by omega
  have hnum := hinv.num
  obtain ⟨i, hi, hh, d, hd, hieq, hchain⟩ := hinv.present (k, v) hp
  have hski : t.slotKey i = some k := hinv.slotKey_of_holds hp hh
  have hsteps : ∀ j, j < d → t.stepped k (fingerprint hf k) ((home hf c k + j) % t.numItems) := by
    intro j hj
    have hjc : (home hf c k + j) % c < c := Nat.mod_lt _ (by omega)
    have hoccj : t.occ ((home hf c k + j) % c) := hchain j hj
    obtain ⟨p, hpj, hhj⟩ := hinv.slots _ hjc hoccj
    have hskj : t.slotKey ((home hf c k + j) % c) = some p.1 :=
      hinv.slotKey_of_holds hpj hhj
    rw [hnum]
    refine ⟨hoccj, fun _ => ⟨p.1, hskj, ?_⟩⟩
    intro hcontra
    have hij : (home hf c k + j) % c = i :=
      hinv.uniq _ i p.1 hjc hi hoccj (by rw [Table.occ, hh.1]; exact hinv.fpnz (k, v) hp)
        hskj (by rw [hski, hcontra])
    rw [hieq] at hij
    exact absurd (probe_inj (home hf c k) j d c (by omega) hd hij) (by omega)
  have hreach := findLoop_reaches t k (fingerprint hf k) d t.numItems (home hf c k)
    (by rw [hnum]; exact home_lt hf c k hc) (by omega) hsteps
    (by rw [hnum, ← hieq]; exact hh.1)
    (by rw [hnum, ← hieq]; exact hski)
    (hinv.fpnz (k, v) hp)
  have hieq' : (home hf c k + d) % t.numItems = i := by
    rw [hnum, ← hieq]
  rw [hieq'] at hreach
  have hfindeq : t.find k (fingerprint hf k) = some (i, true) := by
    rw [Table.find]
    have hmask : fingerprint hf k &&& (t.numItems - 1) = home hf c k := by
      rw [hnum, home]
    rw [hmask]
    exact hreach
  rw [Table.getPtr, hfindeq]
  simp only [if_true]
  rw [hh.2.2.2]

/-- On an invariant table with spare capacity, looking up a key that was
never inserted reports a miss. -/
theorem Inv.getPtr_absent {hf : Key → Nat} {c vs B : Nat}
    {ps : List (Key × List Nat)} {t : Table} (hinv : Inv hf c vs B ps t)
    {q : Key} (hq : q ∉ ps.map Prod.fst) (hroom : ps.length < c) :
    t.getPtr q (fingerprint hf q) = some none := by
  have hc : 0 < c := by omega
  have hnum := hinv.num
  have hstart : home hf c q < t.numItems := by
    rw [hnum]
    exact home_lt hf c q hc
  have hempties : ∃ j < t.numItems, ¬ t.occ ((home hf c q + j) % t.numItems) := by
    obtain ⟨e, he, hne⟩ := hinv.empty_slot hroom
    obtain ⟨j, hj, hje⟩ := probe_covers (home hf c q) e t.numItems (by omega) (by omega)
    exact ⟨j, hj, by rw [hje]; exact hne⟩
  obtain ⟨i₀, hfind, _, _⟩ :=
    findLoop_miss t q (fingerprint hf q) t.numItems (home hf c q) (by omega) hempties
    (fun i hi => hinv.absent hq i (by omega))
  have hfindeq : t.find q (fingerprint hf q) = some (i₀, false) := by
    rw [Table.find]
    have hmask : fingerprint hf q &&& (t.numItems - 1) = home hf c q := by
      rw [hnum, home]
    rw [hmask]
    exact hfind
  rw [Table.getPtr, hfindeq]
  simp

/-- Folding `Set` over fresh pairs keeps the invariant. -/
theorem insertAll_inv {hf : Key → Nat} {c vs B : Nat} :
    ∀ (rest pre : List (Key × List Nat)) (t : Table),
    Inv hf c vs B pre t →
    ((pre ++ rest).map Prod.fst).Nodup →
    (∀ p ∈ rest, fingerprint hf p.1 ≠ 0) →
    (∀ p ∈ rest, p.1.length < 2 ^ 62) →
    (∀ p ∈ rest, p.2.length = vs) →
    (pre ++ rest).length ≤ c →
    ((pre ++ rest).map fun p => recLen p.1).sum ≤ B →
    ∃ t', insertAll hf t rest = some t' ∧ Inv hf c vs B (pre ++ rest) t' := by
  intro rest
  induction rest with
  | nil =>
    intro pre t hinv _ _ _ _ _ _
    exact ⟨t, rfl, by simpa using hinv⟩
  | cons p rest ih =>
    intro pre t hinv hdist hfp hsmall hvlen hroom hbudget
    obtain ⟨k, v⟩ := p
    have hmapsplit : (pre ++ (k, v) :: rest).map Prod.fst
        = pre.map Prod.fst ++ k :: rest.map Prod.fst := by
      simp
    have hnotin : k ∉ pre.map Prod.fst := by
      rw [hmapsplit] at hdist
      rcases List.nodup_append.mp hdist with ⟨_, _, hdisj⟩
      intro hmem
      exact hdisj hmem (by simp)
    have hplen : (pre ++ (k, v) :: rest).length = pre.length + rest.length + 1 := by
      simp [List.length_append]
      omega
    have hsum : ((pre ++ (k, v) :: rest).map fun p => recLen p.1).sum
        = (pre.map fun p => recLen p.1).sum + recLen k
          + (rest.map fun p => recLen p.1).sum := by
      simp [List.sum_append]
      omega
    obtain ⟨t2, hset, hinv2⟩ := hinv.step hnotin
      (hfp (k, v) (by simp))
      (hsmall (k, v) (by simp))
      (hvlen (k, v) (by simp))
      (by omega)
      (by rw [hinv.koff]
          have hnonneg : 0 ≤ (rest.map fun p => recLen p.1).sum := Nat.zero_le _
          omega)
    have hassoc : pre ++ (k, v) :: rest = (pre ++ [(k, v)]) ++ rest := by
      simp
    obtain ⟨t', hins, hinv'⟩ := ih (pre ++ [(k, v)]) t2 hinv2
      (by rw [← hassoc]; exact hdist)
      (fun q hq => hfp q (by simp [hq]))
      (fun q hq => hsmall q (by simp [hq]))
      (fun q hq => hvlen q (by simp [hq]))
      (by rw [← hassoc]; omega)
      (by rw [← hassoc]; exact hbudget)
    refine ⟨t', ?_, by rw [hassoc]; exact hinv'⟩
    rw [insertAll, List.foldlM_cons]
    rw [show (setH hf t k v) = some t2 from hset]
    exact hins

theorem getD_replicate_zero (m i : Nat) :
    (List.replicate m (0 : Nat)).getD i 0 = 0 := by
  by_cases h : i < m
  · rw [getD_zero_eq_getElem _ _ (by simpa using h)]
    simp
  · rw [List.getD_eq_getElem?_getD, List.getElem?_eq_none (by simpa using h)]
    rfl

/-- A fresh builder satisfies the invariant for the empty insertion
list, with key-data budget `totalKeyLength + 4 * capacity`. -/
theorem Inv.initial (hf : Key → Nat) (n valueSize totalKeyLength : Nat) :
    Inv hf (newNumItems n) valueSize (totalKeyLength + 4 * newNumItems n) []
      (New n valueSize totalKeyLength) := by
  have hkd : (New n valueSize totalKeyLength).keyData
      = List.replicate (totalKeyLength + 4 * newNumItems n) 0 := by
    rw [New]
    simp only [offsets, roundUp]
    congr 1
    omega
  refine { num := rfl, vsz := rfl, hlen := by simp [New], klen := by simp [New],
           vlen := by simp [New], kdlen := by rw [hkd]; simp,
           koff := rfl, koff_le := by simp [New],
           hbound := ?_, kbound := ?_, count := ?_,
           small := by simp, fpnz := by simp,
           slots := ?_, present := by simp, uniq := ?_ }
  · intro x hx
    rw [New] at hx
    simp only at hx
    rw [List.eq_of_mem_replicate hx]
    norm_num
  · intro x hx
    rw [New] at hx
    simp only at hx
    rw [List.eq_of_mem_replicate hx]
    omega
  · rw [New]
    simp only [List.length_nil]
    rw [List.countP_eq_zero.mpr]
    intro a ha
    rw [List.eq_of_mem_replicate ha]
    simp
  · intro i _ hocc
    exfalso
    apply hocc
    rw [New]
    simp only
    exact getD_replicate_zero _ _
  · intro i j k' _ _ hocci _ _ _
    exfalso
    apply hocci
    rw [New]
    simp only
    exact getD_replicate_zero _ _

theorem addKey_length_eq {t : Table} {k : Key} {t1 : Table} {off : Nat}
    (h : t.addKey k = some (t1, off)) :
    t1.length = t.length ∧ t1.numItems = t.numItems ∧ t1.valueSize = t.valueSize := by
  rw [Table.addKey] at h
  split at h
  · simp only [Option.some.injEq, Prod.mk.injEq] at h
    rw [← h.1]
    exact ⟨rfl, rfl, rfl⟩
  · exact Option.noConfusion h

theorem setH_length_eq {hf : Key → Nat} {t : Table} {k : Key} {v : List Nat}
    {t' : Table} (h : setH hf t k v = some t') : t'.length = t.length := by
  rw [setH, Table.set] at h
  rcases hfind : t.find k (fingerprint hf k) with _ | ⟨i, found⟩
  · rw [hfind] at h
    exact Option.noConfusion h
  simp only [hfind] at h
  rcases found with _ | _
  · simp only [Bool.false_eq_true, if_false] at h
    rcases haddk : t.addKey k with _ | ⟨t1, off⟩
    · rw [haddk] at h
      exact Option.noConfusion h
    · simp only [haddk] at h
      obtain ⟨hl, _, _⟩ := addKey_length_eq haddk
      injection h with h
      rw [← h]
      exact hl
  · simp only [if_true] at h
    injection h with h
    rw [← h]

theorem insertAll_length_eq {hf : Key → Nat} :
    ∀ (ps : List (Key × List Nat)) (t t' : Table),
    insertAll hf t ps = some t' → t'.length = t.length := by
  intro ps
  induction ps with
  | nil =>
    intro t t' h
    rw [insertAll, List.foldlM_nil] at h
    injection h with h
    rw [h]
  | cons p rest ih =>
    intro t t' h
    rw [insertAll, List.foldlM_cons] at h
    rcases hset : setH hf t p.1 p.2 with _ | t2
    · rw [hset] at h
      exact Option.noConfusion h
    · rw [hset] at h
      simp only [Option.bind_eq_bind, Option.some_bind] at h
      rw [ih t2 t' h, setH_length_eq hset]

/-! ### Round-trip through the on-disk bytes -/

theorem leList_length (w : Nat) (l : List Nat) :
    (leList w l).length = w * l.length := by
  induction l with
  | nil => simp [leList]
  | cons x xs ih =>
    simp only [leList, List.flatMap_cons] at ih ⊢
    rw [List.length_append, le_length, ih, List.length_cons]
    ring

theorem leList_drop (w : Nat) : ∀ (i : Nat) (l : List Nat), i ≤ l.length →
    (leList w l).drop (w * i) = leList w (l.drop i) := by
  intro i
  induction i with
  | zero => simp
  | succ i ih =>
    intro l hl
    rcases l with _ | ⟨x, xs⟩
    · simp at hl
    · have hw : w * (i + 1) = w + w * i := by ring
      rw [hw, ← List.drop_drop]
      simp only [leList, List.flatMap_cons]
      rw [List.drop_left' (le_length w x)]
      rw [List.length_cons] at hl
      rw [List.drop_succ_cons]
      have := ih xs (by omega)
      simp only [leList] at this
      exact this

/-- Reading the `i`-th `w`-byte word of a serialised word list. -/
theorem readLE_leList (w : Nat) (l : List Nat) (rest : List Nat) (i : Nat)
    (hi : i < l.length) (hbound : l[i] < 256 ^ w) :
    readLE w ((leList w l ++ rest).drop (w * i)) = l[i] := by
  rw [List.drop_append_of_le_length (by rw [leList_length]; exact Nat.mul_le_mul_left w (by omega))]
  rw [leList_drop w i l (by omega)]
  rw [List.drop_eq_getElem_cons hi]
  simp only [leList, List.flatMap_cons]
  rw [List.append_assoc]
  exact readLE_le w l[i] _ hbound

/-- Loading the bytes written by `WriteTo` rebuilds the same table (with
the write-cursor and arena-length fields at their zero values, which no
read path consults). -/
theorem newFromData_writeToBytes (t : Table) (c vs B : Nat)
    (hnum : t.numItems = c) (hvsz : t.valueSize = vs)
    (hhlen : t.hashes.length = c) (hklen : t.keys.length = c)
    (hvlen : t.values.length = c * vs) (hkdlen : t.keyData.length = B)
    (hlen : t.length = roundUp (16 + 4 * c) 8 + 8 * c + vs * c + B)
    (hcb : c < 2 ^ 64) (hvb : vs < 2 ^ 64)
    (hhb : ∀ x ∈ t.hashes, x < 2 ^ 32) (hkb : ∀ x ∈ t.keys, x < 2 ^ 64) :
    newFromData t.writeToBytes = { t with keyOffset := 0, length := 0 } := by
  have hoff1 : (offsets c vs 0).1 = 16 := rfl
  have hoffk : (offsets c vs 0).2.1 = roundUp (16 + 4 * c) 8 := rfl
  have hoffv : (offsets c vs 0).2.2.1 = roundUp (16 + 4 * c) 8 + 8 * c := rfl
  have hoffkd : (offsets c vs 0).2.2.2.1
      = roundUp (16 + 4 * c) 8 + 8 * c + vs * c := rfl
  have hkOff_ge : 16 + 4 * c ≤ roundUp (16 + 4 * c) 8 := by
    rw [roundUp]
    omega
  set kOff := roundUp (16 + 4 * c) 8 with hkOdef
  set pad := kOff - (16 + 4 * c) with hpaddef
  -- the arena bytes
  set A : List Nat := List.replicate 16 0 ++
      (leList 4 t.hashes ++
        (List.replicate pad 0 ++
          (leList 8 t.keys ++ (t.values ++ t.keyData)))) with hAdef
  have hAlen : A.length = kOff + 8 * c + vs * c + B := by
    rw [hAdef]
    simp only [List.length_append, List.length_replicate, leList_length]
    rw [hhlen, hklen, hvlen, hkdlen]
    have : c * vs = vs * c := by ring
    omega
  have hwtb : t.writeToBytes = le 8 c ++ (le 8 vs ++ A) := by
    rw [Table.writeToBytes]
    simp only [hnum, hvsz, hoffk]
    rw [List.take_of_length_le (by
      simp only [List.length_append, List.length_replicate, leList_length,
        hhlen, hklen, hvlen, hkdlen]
      have hcv : c * vs = vs * c := by ring
      omega)]
    rw [hAdef, hpaddef]
    simp [List.append_assoc]
  have hdLen : t.writeToBytes.length = 16 + A.length := by
    rw [hwtb]
    simp only [List.length_append, le_length]
    omega
  have hn : readLE 8 t.writeToBytes = c := by
    rw [hwtb]
    exact readLE_le 8 c _ (by norm_num at hcb ⊢; omega)
  have hv : readLE 8 (t.writeToBytes.drop 8) = vs := by
    rw [hwtb, List.drop_left' (le_length 8 c)]
    exact readLE_le 8 vs _ (by norm_num at hvb ⊢; omega)
  have hbase : t.writeToBytes.drop 16 = A := by
    rw [hwtb, ← List.append_assoc]
    exact List.drop_left' (by simp [le_length])
  -- section slices of the arena
  have hA16 : A.drop 16 = leList 4 t.hashes ++
      (List.replicate pad 0 ++ (leList 8 t.keys ++ (t.values ++ t.keyData))) := by
    rw [hAdef]
    exact List.drop_left' (by simp)
  have hAk : A.drop kOff = leList 8 t.keys ++ (t.values ++ t.keyData) := by
    have h1 : kOff = 16 + (4 * c + pad) := by omega
    rw [h1, ← List.drop_drop, hA16, ← List.drop_drop,
      List.drop_left' (by rw [leList_length, hhlen]),
      List.drop_left' (by simp)]
  have hAv : A.drop (kOff + 8 * c) = t.values ++ t.keyData := by
    rw [← List.drop_drop, hAk, List.drop_left' (by rw [leList_length, hklen])]
  have hAkd : A.drop (kOff + 8 * c + vs * c) = t.keyData := by
    have h1 : kOff + 8 * c + vs * c = kOff + 8 * c + (vs * c) := rfl
    rw [h1, ← List.drop_drop, hAv, List.drop_left' (by rw [hvlen]; ring)]
  rw [newFromData]
  simp only [hn, hv, hbase, hoff1, hoffk, hoffv, hoffkd]
  have hmk : ({ t with keyOffset := 0, length := 0 } : Table)
      = Table.mk t.valueSize t.numItems t.hashes t.keys t.values t.keyData 0 0 := rfl
  rw [hmk, Table.mk.injEq]
  refine ⟨hvsz.symm, hnum.symm, ?_, ?_, ?_, ?_, rfl, rfl⟩
  · -- hashes
    apply List.ext_getElem
    · simp [hhlen]
    intro i h1 h2
    simp only [List.getElem_map, List.getElem_range]
    have hi : i < c := by simpa using h1
    have hdd : A.drop (16 + 4 * i) = ((leList 4 t.hashes ++
        (List.replicate pad 0 ++ (leList 8 t.keys ++ (t.values ++ t.keyData)))).drop (4 * i)) := by
      rw [← List.drop_drop, hA16]
    rw [hdd]
    exact readLE_leList 4 t.hashes _ i (by omega)
      (by have := hhb t.hashes[i] (List.getElem_mem _); norm_num at this ⊢; omega)
  · -- keys
    apply List.ext_getElem
    · simp [hklen]
    intro i h1 h2
    simp only [List.getElem_map, List.getElem_range]
    have hi : i < c := by simpa using h1
    have hdd : A.drop (kOff + 8 * i) = ((leList 8 t.keys ++ (t.values ++ t.keyData)).drop (8 * i)) := by
      rw [← List.drop_drop, hAk]
    rw [hdd]
    exact readLE_leList 8 t.keys _ i (by omega)
      (by have := hkb t.keys[i] (List.getElem_mem _); norm_num at this ⊢; omega)
  · -- values
    rw [seg, hAv]
    exact List.take_left' hvlen
  · -- key data
    rw [seg, hAkd, hdLen, hAlen]
    exact List.take_of_length_le (by omega)

/-- The probe loop reads only the hashes, keys, key-data and capacity. -/
theorem findLoop_congr (t t' : Table) (key : Key) (hv : Nat)
    (hh : t'.hashes = t.hashes) (hk : t'.keys = t.keys)
    (hkd : t'.keyData = t.keyData) (hn : t'.numItems = t.numItems) :
    ∀ fuel cursor, t'.findLoop key hv fuel cursor = t.findLoop key hv fuel cursor := by
  intro fuel
  induction fuel with
  | zero => intro cursor; rfl
  | succ fuel ih =>
    intro cursor
    rw [Table.findLoop, Table.findLoop, hh, hk, hn]
    have hg : t'.getKey (t.keys.getD cursor 0) = t.getKey (t.keys.getD cursor 0) := by
      rw [Table.getKey, Table.getKey, hkd]
    rw [hg]
    rcases t.getKey (t.keys.getD cursor 0) with _ | k <;>
      simp only [ih]

theorem getPtr_congr (t t' : Table) (key : Key) (hv : Nat)
    (hh : t'.hashes = t.hashes) (hk : t'.keys = t.keys)
    (hkd : t'.keyData = t.keyData) (hn : t'.numItems = t.numItems)
    (hv2 : t'.values = t.values) (hvs : t'.valueSize = t.valueSize) :
    t'.getPtr key hv = t.getPtr key hv := by
  rw [Table.getPtr, Table.getPtr, Table.find, Table.find, hn,
    findLoop_congr t t' key hv hh hk hkd hn, hv2, hvs]

theorem bitLenAux_spec : ∀ (fuel x : Nat), x < 2 ^ fuel →
    x < 2 ^ bitLenAux fuel x ∧ ∀ k, x < 2 ^ k → bitLenAux fuel x ≤ k := by
  intro fuel
  induction fuel with
  | zero =>
    intro x hx
    have hx0 : x = 0 := by
      simp at hx
      omega
    subst hx0
    exact ⟨by norm_num, fun k _ => by simp [bitLenAux]⟩
  | succ fuel ih =>
    intro x hx
    rw [bitLenAux]
    by_cases h0 : x = 0
    · subst h0
      exact ⟨by simp, fun k _ => by simp⟩
    · rw [if_neg h0]
      have hdiv : x / 2 < 2 ^ fuel := by
        rw [Nat.div_lt_iff_lt_mul (by norm_num)]
        rw [Nat.pow_succ] at hx
        omega
      obtain ⟨hlt, hmin⟩ := ih (x / 2) hdiv
      constructor
      · rw [Nat.pow_succ]
        omega
      · intro k hk
        have hk1 : 1 ≤ k := by
          by_contra hc
          push_neg at hc
          interval_cases k
          simp at hk
          omega
        have : x / 2 < 2 ^ (k - 1) := by
          rw [Nat.div_lt_iff_lt_mul (by norm_num)]
          have hp : 2 ^ (k - 1) * 2 = 2 ^ k := by
            rw [← Nat.pow_succ]
            congr 1
            omega
          omega
        have := hmin (k - 1) this
        omega

theorem newNumItems_eq (n : Nat) (h62 : n ≤ 2 ^ 62) :
    newNumItems n = 2 ^ bitLenAux 64 (n - 1) := by
  have h2 : (2 : Nat) ^ 62 = 4611686018427387904 := by norm_num
  have hb := bitLenAux_spec 64 (n - 1) (by norm_num; omega)
  have hs : bitLenAux 64 (n - 1) ≤ 62 := hb.2 62 (by omega)
  rw [newNumItems, Nat.shiftLeft_eq, Nat.one_mul, Nat.mod_eq_of_lt]
  exact Nat.pow_lt_pow_right (by omega) (by omega)

theorem newNumItems_ge (n : Nat) (h1 : 1 ≤ n) (h62 : n ≤ 2 ^ 62) :
    n ≤ newNumItems n := by
  rw [newNumItems_eq n h62]
  have h2 : (2 : Nat) ^ 62 = 4611686018427387904 := by norm_num
  have hb := bitLenAux_spec 64 (n - 1) (by norm_num; omega)
  have := hb.1
  omega

theorem newNumItems_le (n : Nat) (h62 : n ≤ 2 ^ 62) :
    newNumItems n ≤ 2 ^ 62 := by
  rw [newNumItems_eq n h62]
  apply Nat.pow_le_pow_right (by omega)
  have h2 : (2 : Nat) ^ 62 = 4611686018427387904 := by norm_num
  exact (bitLenAux_spec 64 (n - 1) (by norm_num; omega)).2 62 (by omega)

theorem New_num (n vs tkl : Nat) : (New n vs tkl).numItems = newNumItems n := rfl

theorem New_length (n vs tkl : Nat) :
    (New n vs tkl).length = roundUp (16 + 4 * newNumItems n) 8
      + 8 * newNumItems n + vs * newNumItems n + (tkl + 4 * newNumItems n) := by
  rw [New]
  simp only [offsets]
  omega

/-! ### The claims -/

/-- Claim C8: the layout calculator reproduces the spec's reference vectors:
`offsets 1 1 1 = (hashes 16, keys 24, values 32, keydata 33, total 38)`
and `offsets 5 17 40 = (16, 40, 80, 165, 225)`. -/
theorem offsets_reference_vectors :
    offsets 1 1 1 = (16, 24, 32, 33, 38) ∧
    offsets 5 17 40 = (16, 40, 80, 165, 225) := by
  decide

/-- Claim C10: `GetPtr` on a nil receiver returns `(nil, false)` for every key
and every hash function, before any hashing happens. -/
theorem getPtr_nil_receiver :
    ∀ (hf : Key → Nat) (key : Key), getPtrH hf none key = some none := by
  intro hf key
  rfl

/-- Claim C7: for every builder `New` constructs (requested item count
`n ≥ 1`, within the range where the 64-bit shift cannot overflow),
`Cap()` is a power of two and at least `n`; in particular `n = 7` and
`n = 8` give capacity 8, and `n = 9` gives capacity 16. -/
theorem new_capacity_power_of_two :
    (∀ n valueSize totalKeyLength : Nat, 1 ≤ n → n ≤ 2 ^ 62 →
      (∃ k, (New n valueSize totalKeyLength).cap = 2 ^ k) ∧
        n ≤ (New n valueSize totalKeyLength).cap) ∧
    (New 7 1 1).cap = 8 ∧ (New 8 1 1).cap = 8 ∧ (New 9 1 1).cap = 16 := by
  refine ⟨?_, by decide, by decide, by decide⟩
  intro n valueSize totalKeyLength h1 h62
  have hcap : (New n valueSize totalKeyLength).cap = newNumItems n := by
    rw [Table.cap, New]
    simp
  rw [hcap, newNumItems_eq n h62]
  have h2 : (2 : Nat) ^ 62 = 4611686018427387904 := by norm_num
  have hb := bitLenAux_spec 64 (n - 1) (by norm_num; omega)
  exact ⟨⟨bitLenAux 64 (n - 1), rfl⟩, by have := hb.1; omega⟩

/-- Witness for C7 at `n = 7`. -/
theorem new_capacity_power_of_two_witness :
    (1 ≤ 7 ∧ 7 ≤ 2 ^ 62) ∧
      ((∃ k, (New 7 8 21).cap = 2 ^ k) ∧ 7 ≤ (New 7 8 21).cap) :=
  ⟨⟨by norm_num, by norm_num⟩,
    new_capacity_power_of_two.1 7 8 21 (by norm_num) (by norm_num)⟩

/-- A hash function that sends every key to 0, exercising the reserved
empty-slot sentinel value. -/
def zeroHash : Key → Nat := fun _ => 0

/-- Claim C1, failing input: no non-zero replacement is substituted for a
zero hash.  Inserting the key `[5]` whose 32-bit hash is 0 into a fresh
capacity-2 builder stores the raw fingerprint 0 — the hashes section
still reads as all-empty — and the subsequent `GetPtr` for that key
misses. -/
theorem zero_hash_fingerprint_not_substituted :
    (insertAll zeroHash (New 2 1 2) [([5], [9])]).map Table.hashes
        = some [0, 0] ∧
    (insertAll zeroHash (New 2 1 2) [([5], [9])]).bind
        (fun t => getPtrH zeroHash (some t) [5]) = some none := by
  constructor
  · rfl
  · rfl

/-- Claim C3: inserting any list of pairwise-distinct keys (with non-zero
32-bit fingerprints, values of the declared size, at most capacity many
keys, and a sufficient key-data budget) into a fresh builder succeeds,
and `GetPtr` then returns exactly the inserted value bytes for every
key.  The list `ps` ranges over all insertion orders of the set of
pairs, so the result is order-independent. -/
theorem set_then_getPtr_returns_value (hf : Key → Nat)
    (n valueSize totalKeyLength : Nat) (ps : List (Key × List Nat))
    (hdist : (ps.map Prod.fst).Nodup)
    (hfp : ∀ p ∈ ps, fingerprint hf p.1 ≠ 0)
    (hsmall : ∀ p ∈ ps, p.1.length < 2 ^ 62)
    (hvl : ∀ p ∈ ps, p.2.length = valueSize)
    (hcount : ps.length ≤ newNumItems n)
    (hbudget : (ps.map fun p => recLen p.1).sum
      ≤ totalKeyLength + 4 * newNumItems n) :
    ∃ t, insertAll hf (New n valueSize totalKeyLength) ps = some t ∧
      ∀ p ∈ ps, getPtrH hf (some t) p.1 = some (some p.2) := by
  obtain ⟨t, hins, hinv⟩ := insertAll_inv ps [] (New n valueSize totalKeyLength)
    (Inv.initial hf n valueSize totalKeyLength)
    (by simpa using hdist) hfp hsmall hvl (by simpa using hcount)
    (by simpa using hbudget)
  rw [List.nil_append] at hinv
  refine ⟨t, hins, ?_⟩
  intro p hp
  obtain ⟨k, v⟩ := p
  rw [getPtrH]
  exact hinv.getPtr_present hp (List.length_pos.mpr (List.ne_nil_of_mem hp))

/-- A simple non-zero byte-sum hash used to instantiate the insertion
theorems on concrete inputs. -/
def sumHash : Key → Nat := fun k => k.foldl (fun a b => a + b) 1

/-- Witness for C3: two keys inserted into a capacity-4 builder are both
retrievable. -/
theorem set_then_getPtr_returns_value_witness :
    (([([1], [10]), ([2], [20])].map Prod.fst).Nodup ∧
      (∀ p ∈ [([1], [10]), ([2], [20])], fingerprint sumHash p.1 ≠ 0) ∧
      [([1], [10]), ([2], [20])].length ≤ newNumItems 3) ∧
    (∃ t, insertAll sumHash (New 3 1 2) [([1], [10]), ([2], [20])] = some t ∧
      ∀ p ∈ [([1], [10]), ([2], [20])],
        getPtrH sumHash (some t) p.1 = some (some p.2)) :=
  ⟨⟨by decide, by decide, by decide⟩,
    set_then_getPtr_returns_value sumHash 3 1 2 [([1], [10]), ([2], [20])]
      (by decide) (by decide) (by decide) (by decide) (by decide) (by decide)⟩

/-- Claim C9: when `Set` is called with a key already present (the probe finds
its slot with `found = true`), only the `valueSize` value bytes of that
slot change: the hashes, key-offset array, key-data contents, key-data
write cursor, and every value byte outside the slot are untouched, and
no key record is appended. -/
theorem set_existing_key_frame (t : Table) (key : Key) (v : List Nat)
    (hv i : Nat)
    (hfound : t.find key hv = some (i, true))
    (hfit : i * t.valueSize + t.valueSize ≤ t.values.length)
    (hvl : v.length = t.valueSize) :
    ∃ t', t.set key v hv = some t' ∧
      t'.hashes = t.hashes ∧ t'.keys = t.keys ∧ t'.keyData = t.keyData ∧
      t'.keyOffset = t.keyOffset ∧ t'.numItems = t.numItems ∧
      t'.valueSize = t.valueSize ∧ t'.length = t.length ∧
      t'.values.length = t.values.length ∧
      seg t'.values (i * t.valueSize) t.valueSize = v ∧
      (∀ a m, a + m ≤ i * t.valueSize ∨ i * t.valueSize + t.valueSize ≤ a →
        seg t'.values a m = seg t.values a m) := by
  have hvtake : v.take t.valueSize = v := List.take_of_length_le (by omega)
  refine ⟨{ t with values := writeAt t.values (i * t.valueSize) (v.take t.valueSize) },
    ?_, rfl, rfl, rfl, rfl, rfl, rfl, rfl, ?_, ?_, ?_⟩
  · rw [Table.set, hfound]
    simp only [if_true]
  · simp only
    rw [writeAt_length _ _ _ (by omega)]
  · simp only
    rw [hvtake]
    have := writeAt_seg t.values (i * t.valueSize) v (by omega)
    rw [hvl] at this
    exact this
  · intro a m hdisj
    simp only
    rw [hvtake]
    exact writeAt_seg_frame t.values (i * t.valueSize) v a m (by omega)
      (by omega)

/-- Witness for C9 on a concrete two-slot table holding the key `[1]`. -/
theorem set_existing_key_frame_witness :
    (Table.mk 1 2 [0, 1] [0, 0] [0, 9] [2, 1, 0, 0, 0, 0, 0, 0, 0, 0] 2 52).find
        [1] 1 = some (1, true) ∧
    (∃ t', (Table.mk 1 2 [0, 1] [0, 0] [0, 9] [2, 1, 0, 0, 0, 0, 0, 0, 0, 0] 2 52).set
          [1] [7] 1 = some t' ∧
      t'.hashes = [0, 1] ∧ t'.keys = [0, 0] ∧
      t'.keyData = [2, 1, 0, 0, 0, 0, 0, 0, 0, 0] ∧
      t'.keyOffset = 2 ∧ t'.numItems = 2 ∧ t'.valueSize = 1 ∧ t'.length = 52 ∧
      t'.values.length = 2 ∧ seg t'.values 1 1 = [7] ∧
      (∀ a m, a + m ≤ 1 ∨ 2 ≤ a → seg t'.values a m = seg [0, 9] a m)) := by
  constructor
  · decide
  · obtain ⟨t', h1, h2, h3, h4, h5, h6, h7, h8, h9, h10, h11⟩ :=
      set_existing_key_frame
        (Table.mk 1 2 [0, 1] [0, 0] [0, 9] [2, 1, 0, 0, 0, 0, 0, 0, 0, 0] 2 52)
        [1] [7] 1 1 (by decide) (by decide) (by decide)
    exact ⟨t', h1, h2, h3, h4, h5, h6, h7, h8, h9, h10, h11⟩

/-- The head byte of the key, as a simple hash. -/
def headHash : Key → Nat := fun k => k.headD 0

/-- Claim C5, counterexample: on the reachable state where a capacity-1
builder holds the key `[1]`, looking up the absent key `[2]` does not
return a negative result, it dies with the "out of space!" panic
(`none`): `GetPtr` is not total on fully occupied tables. -/
theorem full_table_missing_key_panics :
    (insertAll headHash (New 1 1 1) [([1], [9])]).bind
        (fun t => getPtrH headHash (some t) [2]) = none ∧
    (insertAll headHash (New 1 1 1) [([1], [9])]).map
        (fun t => decide (∀ i, i < t.numItems → t.occ i)) = some true := by
  constructor
  · rfl
  · rfl

/-- Claim C5, amended: `GetPtr` on a key held by no slot returns `(nil,
false)` and never fails, provided at least one hash slot is empty; the
capacity-exhaustion panic only arises on fully occupied tables. -/
theorem getPtr_missing_returns_negative (t : Table) (q : Key) (hv : Nat)
    (hlenh : t.hashes.length = t.numItems)
    (hempty : ∃ i, i < t.numItems ∧ t.hashes.getD i 0 = 0)
    (habs : ∀ i, i < t.numItems → t.occ i →
      (t.slotKey i).isSome = true ∧ t.slotKey i ≠ some q) :
    t.getPtr q hv = some none := by
  obtain ⟨e, he, hez⟩ := hempty
  have hc : 0 < t.numItems := by omega
  have hcur : hv &&& (t.numItems - 1) < t.numItems := by
    have h1 : hv &&& (t.numItems - 1) ≤ t.numItems - 1 := Nat.and_le_right
    omega
  have hempties : ∃ j < t.numItems,
      ¬ t.occ (((hv &&& (t.numItems - 1)) + j) % t.numItems) := by
    obtain ⟨j, hj, hje⟩ := probe_covers (hv &&& (t.numItems - 1)) e t.numItems hcur he
    refine ⟨j, hj, ?_⟩
    rw [hje, Table.occ]
    omega
  have habs' : ∀ i, i < t.numItems → t.occ i →
      ∃ k, t.slotKey i = some k ∧ k ≠ q := by
    intro i hi hocc
    obtain ⟨hsome, hne⟩ := habs i hi hocc
    rcases hk : t.slotKey i with _ | k
    · rw [hk] at hsome
      simp at hsome
    · refine ⟨k, rfl, ?_⟩
      intro hcontra
      rw [hk, hcontra] at hne
      exact hne rfl
  obtain ⟨i₀, hfind, _, _⟩ :=
    findLoop_miss t q hv t.numItems (hv &&& (t.numItems - 1)) hcur hempties habs'
  rw [Table.getPtr, Table.find, hfind]
  simp

/-- Witness for the amended C5 on a fresh (entirely empty) table. -/
theorem getPtr_missing_returns_negative_witness :
    ((New 1 1 1).hashes.length = (New 1 1 1).numItems ∧
      (New 1 1 1).hashes.getD 0 0 = 0) ∧
    (New 1 1 1).getPtr [3] 3 = some none :=
  ⟨⟨by decide, by decide⟩,
    getPtr_missing_returns_negative (New 1 1 1) [3] 3 (by decide)
      ⟨0, by decide, by decide⟩ (by decide)⟩

/-- Claim C6: whenever at least one hash slot is zero, the probe loop of
`find` terminates with either the matching slot (`found = true`: its
fingerprint equals the query hash and its stored key decodes to the
query key) or an empty slot (`found = false`); and `find` only dies
with "out of space!" (`none`) when every slot is occupied and no slot
matches the key, i.e. the table is full and the key absent.  The slots
are assumed to satisfy the structural invariant that occupied slots
hold decodable key records. -/
theorem find_probe_termination (t : Table) (key : Key) (hv : Nat)
    (hvalid : ∀ i, i < t.numItems → t.occ i → (t.slotKey i).isSome = true) :
    ((∃ i, i < t.numItems ∧ t.hashes.getD i 0 = 0) →
      ∃ i b, t.find key hv = some (i, b) ∧
        (b = true → t.hashes.getD i 0 = hv ∧ t.slotKey i = some key) ∧
        (b = false → t.hashes.getD i 0 = 0)) ∧
    (t.find key hv = none →
      (∀ i, i < t.numItems → t.occ i) ∧
      (∀ i, i < t.numItems →
        ¬ (t.hashes.getD i 0 = hv ∧ t.slotKey i = some key))) := by
  have hvalid' : ∀ i, i < t.numItems → t.occ i → ∃ k, t.slotKey i = some k := by
    intro i hi hocc
    have := hvalid i hi hocc
    rcases hk : t.slotKey i with _ | k
    · rw [hk] at this
      simp at this
    · exact ⟨k, rfl⟩
  constructor
  · intro hempty
    obtain ⟨e, he, hez⟩ := hempty
    have hc : 0 < t.numItems := by omega
    have hcur : hv &&& (t.numItems - 1) < t.numItems := by
      have h1 : hv &&& (t.numItems - 1) ≤ t.numItems - 1 := Nat.and_le_right
      omega
    rcases hfind : t.find key hv with _ | ⟨i, b⟩
    · exfalso
      rw [Table.find] at hfind
      have hsteps := findLoop_none t key hv t.numItems (hv &&& (t.numItems - 1))
        hcur hvalid' hfind
      obtain ⟨j, hj, hje⟩ := probe_covers (hv &&& (t.numItems - 1)) e t.numItems hcur he
      have := (hsteps j hj).1
      rw [hje, Table.occ] at this
      exact this hez
    · refine ⟨i, b, rfl, ?_, ?_⟩
      · intro hb
        subst hb
        rw [Table.find] at hfind
        obtain ⟨h1, h2, _⟩ := findLoop_true t key hv t.numItems _ i hcur hfind
        exact ⟨h1, h2⟩
      · intro hb
        subst hb
        rw [Table.find] at hfind
        exact (findLoop_false t key hv t.numItems _ i hcur hfind).1
  · intro hnone
    rcases Nat.eq_zero_or_pos t.numItems with hz | hc
    · exact ⟨fun i hi => by omega, fun i hi => by omega⟩
    have hcur : hv &&& (t.numItems - 1) < t.numItems := by
      have h1 : hv &&& (t.numItems - 1) ≤ t.numItems - 1 := Nat.and_le_right
      omega
    rw [Table.find] at hnone
    have hsteps := findLoop_none t key hv t.numItems (hv &&& (t.numItems - 1))
      hcur hvalid' hnone
    constructor
    · intro i hi
      obtain ⟨j, hj, hje⟩ := probe_covers (hv &&& (t.numItems - 1)) i t.numItems hcur hi
      have := (hsteps j hj).1
      rw [hje] at this
      exact this
    · intro i hi hmatch
      obtain ⟨j, hj, hje⟩ := probe_covers (hv &&& (t.numItems - 1)) i t.numItems hcur hi
      have hstep := hsteps j hj
      rw [hje] at hstep
      obtain ⟨k', hk', hne⟩ := hstep.2 hmatch.1
      rw [hmatch.2] at hk'
      injection hk' with hk'
      exact hne hk'.symm

/-- Witness for C6 on a concrete one-key table with an empty slot. -/
theorem find_probe_termination_witness :
    (∀ i, i < (Table.mk 1 2 [0, 1] [0, 0] [0, 9]
        [2, 1, 0, 0, 0, 0, 0, 0, 0, 0] 2 52).numItems →
      (Table.mk 1 2 [0, 1] [0, 0] [0, 9]
        [2, 1, 0, 0, 0, 0, 0, 0, 0, 0] 2 52).occ i →
      ((Table.mk 1 2 [0, 1] [0, 0] [0, 9]
        [2, 1, 0, 0, 0, 0, 0, 0, 0, 0] 2 52).slotKey i).isSome = true) ∧
    (∃ i b, (Table.mk 1 2 [0, 1] [0, 0] [0, 9]
        [2, 1, 0, 0, 0, 0, 0, 0, 0, 0] 2 52).find [1] 1 = some (i, b) ∧
      (b = true → (Table.mk 1 2 [0, 1] [0, 0] [0, 9]
          [2, 1, 0, 0, 0, 0, 0, 0, 0, 0] 2 52).hashes.getD i 0 = 1 ∧
        (Table.mk 1 2 [0, 1] [0, 0] [0, 9]
          [2, 1, 0, 0, 0, 0, 0, 0, 0, 0] 2 52).slotKey i = some [1]) ∧
      (b = false → (Table.mk 1 2 [0, 1] [0, 0] [0, 9]
          [2, 1, 0, 0, 0, 0, 0, 0, 0, 0] 2 52).hashes.getD i 0 = 0)) :=
  ⟨by decide,
    (find_probe_termination (Table.mk 1 2 [0, 1] [0, 0] [0, 9]
        [2, 1, 0, 0, 0, 0, 0, 0, 0, 0] 2 52) [1] 1 (by decide)).1
      ⟨0, by decide, by decide⟩⟩

/-- A constant hash, mapping every key to 1. -/
def oneHash : Key → Nat := fun _ => 1

/-- Claim C4, counterexample: build a one-key table (capacity 1, value size
1, key `[7]` with fingerprint 1) and serialise it.  The stored
fingerprint is 1, but file bytes 16..19 are zeros — not the
little-endian fingerprint `[1, 0, 0, 0]`, which sits at bytes 32..35 —
so the hashes section does not begin at byte offset 16.  Moreover the
file is 54 bytes long while the last key byte ends at offset
16 + 33 + 2 = 51 (key-data section offset 33, two bytes of key data
written), so the file does not end immediately after the last key's
bytes. -/
theorem hashes_not_at_file_offset_16 :
    (insertAll oneHash (New 1 1 1) [([7], [9])]).map
        (fun t => (t.hashes, seg t.writeToBytes 16 4, seg t.writeToBytes 32 4,
          t.writeToBytes.length, t.keyOffset))
      = some ([1], [0, 0, 0, 0], [1, 0, 0, 0], 54, 2) := by
  rfl

/-- Claim C4, amended: in the file `WriteTo` produces, the header is
followed by 16 dead zero bytes (the layout offsets already include the
header, and the writer prepends it again), each section appears at
`16 + its layout offset` — the hashes at byte 32 — and the file length
is `16 + total_length`, covering the whole key-data budget rather than
stopping after the last key's bytes. -/
theorem writeToBytes_section_layout (t : Table) (c vs B : Nat)
    (hnum : t.numItems = c) (hvsz : t.valueSize = vs)
    (hhlen : t.hashes.length = c) (hklen : t.keys.length = c)
    (hvlen : t.values.length = c * vs) (hkdlen : t.keyData.length = B)
    (hlen : t.length = roundUp (16 + 4 * c) 8 + 8 * c + vs * c + B) :
    t.writeToBytes.length = 16 + t.length ∧
    seg t.writeToBytes 0 8 = le 8 c ∧
    seg t.writeToBytes 8 8 = le 8 vs ∧
    seg t.writeToBytes 16 16 = List.replicate 16 0 ∧
    seg t.writeToBytes 32 (4 * c) = leList 4 t.hashes ∧
    seg t.writeToBytes (16 + roundUp (16 + 4 * c) 8) (8 * c) = leList 8 t.keys ∧
    seg t.writeToBytes (16 + roundUp (16 + 4 * c) 8 + 8 * c) (c * vs) = t.values ∧
    seg t.writeToBytes (16 + roundUp (16 + 4 * c) 8 + 8 * c + vs * c) B
      = t.keyData := by
  have hoffk : (offsets c vs 0).2.1 = roundUp (16 + 4 * c) 8 := rfl
  have hkOff_ge : 16 + 4 * c ≤ roundUp (16 + 4 * c) 8 := by
    rw [roundUp]
    omega
  set kOff := roundUp (16 + 4 * c) 8 with hkOdef
  set pad := kOff - (16 + 4 * c) with hpaddef
  set A : List Nat := List.replicate 16 0 ++
      (leList 4 t.hashes ++
        (List.replicate pad 0 ++
          (leList 8 t.keys ++ (t.values ++ t.keyData)))) with hAdef
  have hAlen : A.length = kOff + 8 * c + vs * c + B := by
    rw [hAdef]
    simp only [List.length_append, List.length_replicate, leList_length]
    rw [hhlen, hklen, hvlen, hkdlen]
    have : c * vs = vs * c := by ring
    omega
  have hwtb : t.writeToBytes = le 8 c ++ (le 8 vs ++ A) := by
    rw [Table.writeToBytes]
    simp only [hnum, hvsz, hoffk]
    rw [List.take_of_length_le (by
      simp only [List.length_append, List.length_replicate, leList_length,
        hhlen, hklen, hvlen, hkdlen]
      have hcv : c * vs = vs * c := by ring
      omega)]
    rw [hAdef, hpaddef]
    simp [List.append_assoc]
  have hbase : t.writeToBytes.drop 16 = A := by
    rw [hwtb, ← List.append_assoc]
    exact List.drop_left' (by simp [le_length])
  have hsegA : ∀ x n, seg t.writeToBytes (16 + x) n = seg A x n := by
    intro x n
    rw [seg, seg, ← List.drop_drop, hbase]
  have hA16 : A.drop 16 = leList 4 t.hashes ++
      (List.replicate pad 0 ++ (leList 8 t.keys ++ (t.values ++ t.keyData))) := by
    rw [hAdef]
    exact List.drop_left' (by simp)
  have hAk : A.drop kOff = leList 8 t.keys ++ (t.values ++ t.keyData) := by
    have h1 : kOff = 16 + (4 * c + pad) := by omega
    rw [h1, ← List.drop_drop, hA16, ← List.drop_drop,
      List.drop_left' (by rw [leList_length, hhlen]),
      List.drop_left' (by simp)]
  have hAv : A.drop (kOff + 8 * c) = t.values ++ t.keyData := by
    rw [← List.drop_drop, hAk, List.drop_left' (by rw [leList_length, hklen])]
  have hAkd : A.drop (kOff + 8 * c + vs * c) = t.keyData := by
    rw [← List.drop_drop, hAv, List.drop_left' (by rw [hvlen]; ring)]
  refine ⟨?_, ?_, ?_, ?_, ?_, ?_, ?_, ?_⟩
  · rw [hwtb]
    simp only [List.length_append, le_length]
    omega
  · rw [hwtb, seg, List.drop_zero]
    exact List.take_left' (le_length 8 c)
  · rw [hwtb, seg, List.drop_left' (le_length 8 c)]
    exact List.take_left' (le_length 8 vs)
  · have h16 : (16 : Nat) + 0 = 16 := rfl
    rw [← h16, hsegA, seg, List.drop_zero, hAdef]
    exact List.take_left' (by simp)
  · have h32 : (32 : Nat) = 16 + 16 := rfl
    rw [h32, hsegA, seg, hA16]
    exact List.take_left' (by rw [leList_length, hhlen])
  · rw [hsegA, seg, hAk]
    exact List.take_left' (by rw [leList_length, hklen])
  · have he : 16 + kOff + 8 * c = 16 + (kOff + 8 * c) := by omega
    rw [he, hsegA, seg, hAv]
    exact List.take_left' hvlen
  · have he : 16 + kOff + 8 * c + vs * c = 16 + (kOff + 8 * c + vs * c) := by omega
    rw [he, hsegA, seg, hAkd]
    exact List.take_of_length_le (by omega)

/-- Witness for the amended C4 on the concrete one-key table. -/
theorem writeToBytes_section_layout_witness :
    ((Table.mk 1 1 [1] [0] [9] [2, 7, 0, 0, 0] 2 38).numItems = 1 ∧
      (Table.mk 1 1 [1] [0] [9] [2, 7, 0, 0, 0] 2 38).length
        = roundUp (16 + 4 * 1) 8 + 8 * 1 + 1 * 1 + 5) ∧
    ((Table.mk 1 1 [1] [0] [9] [2, 7, 0, 0, 0] 2 38).writeToBytes.length
        = 16 + (Table.mk 1 1 [1] [0] [9] [2, 7, 0, 0, 0] 2 38).length ∧
      seg (Table.mk 1 1 [1] [0] [9] [2, 7, 0, 0, 0] 2 38).writeToBytes 0 8 = le 8 1 ∧
      seg (Table.mk 1 1 [1] [0] [9] [2, 7, 0, 0, 0] 2 38).writeToBytes 8 8 = le 8 1 ∧
      seg (Table.mk 1 1 [1] [0] [9] [2, 7, 0, 0, 0] 2 38).writeToBytes 16 16
        = List.replicate 16 0 ∧
      seg (Table.mk 1 1 [1] [0] [9] [2, 7, 0, 0, 0] 2 38).writeToBytes 32 (4 * 1)
        = leList 4 [1] ∧
      seg (Table.mk 1 1 [1] [0] [9] [2, 7, 0, 0, 0] 2 38).writeToBytes
          (16 + roundUp (16 + 4 * 1) 8) (8 * 1) = leList 8 [0] ∧
      seg (Table.mk 1 1 [1] [0] [9] [2, 7, 0, 0, 0] 2 38).writeToBytes
          (16 + roundUp (16 + 4 * 1) 8 + 8 * 1) (1 * 1) = [9] ∧
      seg (Table.mk 1 1 [1] [0] [9] [2, 7, 0, 0, 0] 2 38).writeToBytes
          (16 + roundUp (16 + 4 * 1) 8 + 8 * 1 + 1 * 1) 5 = [2, 7, 0, 0, 0]) :=
  ⟨⟨by decide, by decide⟩,
    writeToBytes_section_layout (Table.mk 1 1 [1] [0] [9] [2, 7, 0, 0, 0] 2 38)
      1 1 5 rfl rfl (by decide) (by decide) (by decide) (by decide) (by decide)⟩

/-- Claim C2: round-trip through the serialised bytes.  Insert any list of
pairwise-distinct keys (non-zero fingerprints, correctly sized values,
strictly fewer keys than the capacity so a probe always terminates,
sufficient key-data budget, and sizes within the 64-bit header fields)
into a fresh builder; write the table with `WriteTo` and reopen the
bytes with `newFromData`.  `GetPtr` on the reopened table returns the
inserted value bytes for every inserted key and a miss for every key
never inserted. -/
theorem writeTo_newFromData_roundtrip (hf : Key → Nat)
    (n valueSize totalKeyLength : Nat) (ps : List (Key × List Nat))
    (_hn1 : 1 ≤ n) (hn62 : n ≤ 2 ^ 62) (hvs64 : valueSize < 2 ^ 64)
    (hB64 : totalKeyLength + 4 * newNumItems n < 2 ^ 64)
    (hdist : (ps.map Prod.fst).Nodup)
    (hfp : ∀ p ∈ ps, fingerprint hf p.1 ≠ 0)
    (hsmall : ∀ p ∈ ps, p.1.length < 2 ^ 62)
    (hvl : ∀ p ∈ ps, p.2.length = valueSize)
    (hcount : ps.length < newNumItems n)
    (hbudget : (ps.map fun p => recLen p.1).sum
      ≤ totalKeyLength + 4 * newNumItems n) :
    ∃ t, insertAll hf (New n valueSize totalKeyLength) ps = some t ∧
      (∀ p ∈ ps, getPtrH hf (some (newFromData t.writeToBytes)) p.1
        = some (some p.2)) ∧
      (∀ q, q ∉ ps.map Prod.fst →
        getPtrH hf (some (newFromData t.writeToBytes)) q = some none) := by
  obtain ⟨t, hins, hinv⟩ := insertAll_inv ps [] (New n valueSize totalKeyLength)
    (Inv.initial hf n valueSize totalKeyLength)
    (by simpa using hdist) hfp hsmall hvl
    (by simpa using Nat.le_of_lt hcount)
    (by simpa using hbudget)
  rw [List.nil_append] at hinv
  have hc62 : newNumItems n ≤ 2 ^ 62 := newNumItems_le n hn62
  have h6264 : (2 : Nat) ^ 62 < 2 ^ 64 := by norm_num
  have hlen : t.length = roundUp (16 + 4 * newNumItems n) 8
      + 8 * newNumItems n + valueSize * newNumItems n
      + (totalKeyLength + 4 * newNumItems n) := by
    rw [insertAll_length_eq ps (New n valueSize totalKeyLength) t hins,
      New_length]
  have hrt := newFromData_writeToBytes t (newNumItems n) valueSize
    (totalKeyLength + 4 * newNumItems n)
    hinv.num hinv.vsz hinv.hlen hinv.klen hinv.vlen hinv.kdlen
    hlen
    (by omega) hvs64 hinv.hbound
    (fun x hx => by have := hinv.kbound x hx; omega)
  have hgc : ∀ key hv, (newFromData t.writeToBytes).getPtr key hv
      = t.getPtr key hv := by
    intro key hv
    rw [hrt]
    exact getPtr_congr t _ key hv rfl rfl rfl rfl rfl rfl
  refine ⟨t, hins, ?_, ?_⟩
  · intro p hp
    obtain ⟨k, v⟩ := p
    rw [getPtrH, hgc]
    exact hinv.getPtr_present hp (List.length_pos.mpr (List.ne_nil_of_mem hp))
  · intro q hq
    rw [getPtrH, hgc]
    exact hinv.getPtr_absent hq hcount

/-- Witness for C2: one pair round-trips through the bytes, and a
never-inserted key misses. -/
theorem writeTo_newFromData_roundtrip_witness :
    (([([1], [10])].map Prod.fst).Nodup ∧
      [([1], [10])].length < newNumItems 3) ∧
    (∃ t, insertAll sumHash (New 3 1 2) [([1], [10])] = some t ∧
      (∀ p ∈ [([1], [10])],
        getPtrH sumHash (some (newFromData t.writeToBytes)) p.1
          = some (some p.2)) ∧
      (∀ q, q ∉ [([1], [10])].map Prod.fst →
        getPtrH sumHash (some (newFromData t.writeToBytes)) q = some none)) :=
  ⟨⟨by decide, by decide⟩,
    writeTo_newFromData_roundtrip sumHash 3 1 2 [([1], [10])]
      (by decide) (by norm_num) (by norm_num) (by decide)
      (by decide) (by decide) (by decide) (by decide) (by decide) (by decide)⟩

end Statichash
